import Mathlib

/-!
Verification of the comfypod bulk-downloader worker and the orchestration
poller against its natural-language specification.

The definitions below are a shallow embedding of the TypeScript source:

  * the downloader worker (the bundled `downloader` module): skip decision
    (`checkNeedsDownload`), streamed download classification (`downloadModel`),
    host-keyed auth headers (`getAuthHeaders`), status HTTP handler
    (`handleStatusRequest`), trailing-window throughput (`getRecentSpeed`),
    and the whole `main` run as a small-step state machine (`WStep`);
  * the orchestration poller (`src/commands/setup.ts`): the status polling
    loop (`pollRun`) and the bounded retry loop (`setupLoop`).

External effects (filesystem, HTTP, clock, randomness) are modelled as
explicit oracle parameters; machine integers are Nat/Int, JS float division
is rational division.
-/

set_option maxHeartbeats 1000000

namespace Comfypod

/-- The worker lifecycle phase (field `phase` of `StatusInternal`). -/
inductive Phase where
  | preflight
  | downloading
  | completed
  | failed
deriving DecidableEq, Repr

/-- Per-file terminal status (`FileResult.status` in the source). -/
inductive FStatus where
  | success
  | failed
  | skipped
deriving DecidableEq, Repr

/-- Per-file terminal outcome (interface `FileResult`). -/
structure FileResult where
  file : String
  status : FStatus
  reason : Option String
deriving DecidableEq, Repr

/-- A job entry (interface `Model`): url, destination, optional sha256. -/
structure Model where
  url : String
  dest : String
  sha256 : Option String
deriving DecidableEq, Repr

/-- A job entry after the preflight size probe (interface `ModelWithSize`);
`size = 0` means the remote size is unknown. -/
structure ModelWithSize where
  url : String
  dest : String
  sha256 : Option String
  size : Nat
deriving DecidableEq, Repr

/-- A local file on disk, as the worker can observe it through `statSync`
(size) and `computeSha256` (content hash). -/
structure LocalFile where
  size : Nat
  sha256 : String
deriving DecidableEq, Repr

/-- The body of an HTTP response as far as the worker consumes it: the
sequence of chunk byte-counts delivered by the stream reader, and the sha256
of the content that ends up on disk after all chunks are written. -/
structure BodyData where
  chunks : List Nat
  hash : String
deriving DecidableEq, Repr

/-- An HTTP response to a download request, as consumed by `downloadModel`:
`ok` is `res.ok` (status in 200..299), `statusCode`/`statusText` the status
line, `body` the optional stream. -/
structure HttpResponse where
  ok : Bool
  statusCode : Nat
  statusText : String
  body : Option BodyData
deriving DecidableEq, Repr

/-- Result of one `downloadModel` call (interface `DownloadResult`):
`status: "success"` or `status: "failed"` with a reason. -/
inductive DownloadResult where
  | success
  | failed (reason : String)
deriving DecidableEq, Repr

/-! ## Skip decision (`checkNeedsDownload`, downloader lines 197-226) -/

/-- Result of `checkNeedsDownload`: `{ skip: boolean; reason?: string }`. -/
structure SkipResult where
  skip : Bool
  reason : Option String
deriving DecidableEq, Repr

/-- Embedding of `checkNeedsDownload(model, remoteSize)`.  The filesystem is
the oracle `fs`, mapping an absolute path to the file found there (if any);
`fs destPath` combines the `existsSync`, `statSync` and `computeSha256`
observations the source makes of the destination path. -/
def checkNeedsDownload (fs : String → Option LocalFile) (targetDir : String)
    (m : Model) (remoteSize : Nat) : SkipResult :=
  let destPath := targetDir ++ "/" ++ m.dest
  match fs destPath with
  | none => ⟨false, none⟩
  | some f =>
    match m.sha256 with
    | some h =>
      if f.sha256 = h then ⟨true, some "hash match"⟩ else ⟨false, none⟩
    | none =>
      if remoteSize > 0 ∧ f.size = remoteSize then ⟨true, some "size match"⟩
      else if remoteSize > 0 ∧ f.size ≠ remoteSize then ⟨false, none⟩
      else ⟨true, some "file exists"⟩

/-- The skip decision as the specification words it, claim C1: (1) no local
file → download; (2) a configured hash decides alone, "hash match" iff equal;
(3) known remote size equal to local size → skip "size match"; (4) known
remote size different → download; (5) unknown remote size → skip
"file exists". -/
def specSkipDecision (localFile : Option LocalFile) (expectedHash : Option String)
    (remoteSize : Nat) : SkipResult :=
  match localFile with
  | none => ⟨false, none⟩
  | some f =>
    match expectedHash with
    | some h =>
      if f.sha256 = h then ⟨true, some "hash match"⟩ else ⟨false, none⟩
    | none =>
      if remoteSize ≠ 0 then
        if f.size = remoteSize then ⟨true, some "size match"⟩ else ⟨false, none⟩
      else ⟨true, some "file exists"⟩

/-! ## Download classification (`downloadModel`, downloader lines 228-294) -/

/-- Embedding of `downloadModel(model, onProgress)` restricted to the result
classification; `res` is the oracle response for `fetch(model.url)`.  The
stream loop itself only accumulates `totalWritten`, the sum of chunk sizes;
`res.body.hash` is what `computeSha256(destPath)` returns after the write. -/
def downloadModel (m : ModelWithSize) (res : HttpResponse) : DownloadResult :=
  if !res.ok then
    .failed (toString res.statusCode ++ " " ++ res.statusText)
  else
    match res.body with
    | none => .failed "no response body"
    | some b =>
      let totalWritten := b.chunks.sum
      if m.size > 0 ∧ totalWritten ≠ m.size then
        .failed ("size mismatch: expected " ++ toString m.size ++ ", got "
          ++ toString totalWritten)
      else
        match m.sha256 with
        | some h => if b.hash ≠ h then .failed "hash mismatch" else .success
        | none => .success

/-- The per-entry download classification as claim C2 words it: non-success
status → failed with code and text; missing body → failed "no response body";
known nonzero probed size differing from bytes written → failed
"size mismatch: expected S, got W"; configured hash differing from the
recomputed hash → failed "hash mismatch"; else success. -/
def specDownloadClassify (m : ModelWithSize) (res : HttpResponse) : DownloadResult :=
  if res.ok = false then
    .failed (toString res.statusCode ++ " " ++ res.statusText)
  else
    match res.body with
    | none => .failed "no response body"
    | some b =>
      if m.size ≠ 0 ∧ b.chunks.sum ≠ m.size then
        .failed ("size mismatch: expected " ++ toString m.size ++ ", got "
          ++ toString b.chunks.sum)
      else
        match m.sha256 with
        | some h => if b.hash = h then .success else .failed "hash mismatch"
        | none => .success

/-! ## Auth headers (`getAuthHeaders`, downloader lines 114-122) -/

/-- `needle` occurs as a prefix of `hay` (character lists). -/
def firstMatches : List Char → List Char → Bool
  | [], _ => true
  | _ :: _, [] => false
  | a :: as, b :: bs => a == b && firstMatches as bs

/-- `needle` occurs as a contiguous run somewhere inside `hay`. -/
def containsSeq (needle : List Char) : List Char → Bool
  | [] => needle.isEmpty
  | c :: rest => firstMatches needle (c :: rest) || containsSeq needle rest

/-- Embedding of JS `hay.includes(needle)`: substring containment on the
whole string. -/
def strIncludes (hay needle : String) : Bool :=
  containsSeq needle.toList hay.toList

/-- Embedding of `getAuthHeaders(url)`: the value of the `Authorization`
header, if any.  The source tests `url.includes("huggingface.co") && HF_TOKEN`
then `url.includes("civitai.com") && CIVITAI_TOKEN` on the WHOLE url string
(an empty env token is falsy). -/
def getAuthHeaders (hfToken civitaiToken : String) (url : String) : Option String :=
  if strIncludes url "huggingface.co" ∧ hfToken ≠ "" then
    some ("Bearer " ++ hfToken)
  else if strIncludes url "civitai.com" ∧ civitaiToken ≠ "" then
    some ("Bearer " ++ civitaiToken)
  else none

/-- The amended auth-header selection (claim C6 corrected): selection is by
substring containment over the full URL string, huggingface.co checked first,
and a token is attached only when nonempty. -/
def specAuthSubstring (hfToken civitaiToken : String) (url : String) : Option String :=
  if strIncludes url "huggingface.co" = true ∧ ¬ hfToken = "" then
    some ("Bearer " ++ hfToken)
  else if strIncludes url "civitai.com" = true ∧ ¬ civitaiToken = "" then
    some ("Bearer " ++ civitaiToken)
  else none

/-- The characters after the first occurrence of `"://"`, if any. -/
def afterScheme : List Char → Option (List Char)
  | [] => none
  | c :: rest =>
    if firstMatches [':', '/', '/'] (c :: rest) then some (rest.drop 2)
    else afterScheme rest

/-- Embedding of `getDomain` (`new URL(url).hostname`) for well-formed
http(s) URLs: the text after `"://"` up to the next `/`, `:`, `?` or `#`. -/
def hostname (url : String) : String :=
  let chars := url.toList
  let rest := (afterScheme chars).getD chars
  String.mk (rest.takeWhile
    (fun c => c ≠ '/' && c ≠ ':' && c ≠ '?' && c ≠ '#'))

/-! ## Status document and HTTP handler (downloader lines 30-62, 90-112) -/

/-- The process-wide mutable record `StatusInternal`. -/
structure StatusInternal where
  phase : Phase
  currentFiles : List String
  totalFiles : Nat
  overallDownloadedBytes : Nat
  overallTotalBytes : Nat
  speed : ℚ
  results : List FileResult
  error : Option String
deriving DecidableEq, Repr

/-- The JSON document served on `/status` (`serializeStatus`): the status
record plus derived success/failed/skipped counts. -/
structure SerializedStatus where
  base : StatusInternal
  success : Nat
  failed : Nat
  skipped : Nat
deriving DecidableEq, Repr

/-- Embedding of `serializeStatus()`. -/
def serializeStatus (st : StatusInternal) : SerializedStatus :=
  ⟨st,
   st.results.countP (fun r => decide (r.status = FStatus.success)),
   st.results.countP (fun r => decide (r.status = FStatus.failed)),
   st.results.countP (fun r => decide (r.status = FStatus.skipped))⟩

/-- An incoming HTTP request as the handler reads it: `req.url` and the
`authorization` header. -/
structure HttpRequest where
  url : String
  authorization : Option String
deriving DecidableEq, Repr

/-- The reply the handler writes: a status code and the optional JSON body. -/
structure HttpReply where
  statusCode : Nat
  body : Option SerializedStatus
deriving DecidableEq, Repr

/-- Embedding of the request handler in `startStatusServer`.  The handler in
the source never assigns to `status`; to make that visible the embedding
returns the worker status alongside the reply. -/
def handleStatusRequest (statusToken : String) (st : StatusInternal)
    (req : HttpRequest) : HttpReply × StatusInternal :=
  if statusToken ≠ "" ∧ req.authorization ≠ some ("Bearer " ++ statusToken) then
    (⟨401, none⟩, st)
  else if req.url = "/status" then
    (⟨200, some (serializeStatus st)⟩, st)
  else
    (⟨404, none⟩, st)

/-! ## Trailing-window throughput (`getRecentSpeed`, downloader lines 78-88) -/

/-- One element of `speedSamples`: a timestamp (ms) and a byte count. -/
structure Sample where
  time : Int
  bytes : Nat
deriving DecidableEq, Repr

/-- The trailing window, `SPEED_WINDOW_MS = 60000`. -/
def SPEED_WINDOW_MS : Int := 60000

/-- The `while (... speedSamples[0].time < cutoff) speedSamples.shift()` loop:
drop samples from the front while they are older than `cutoff`. -/
def pruneOld (cutoff : Int) : List Sample → List Sample
  | [] => []
  | s :: rest => if s.time < cutoff then pruneOld cutoff rest else s :: rest

/-- Embedding of `getRecentSpeed()`: returns the computed speed (bytes per
second, as a rational, standing for the JS float) together with the pruned
sample list that the mutation leaves behind. -/
def getRecentSpeed (now : Int) (samples : List Sample) : ℚ × List Sample :=
  let cutoff := now - SPEED_WINDOW_MS
  let pruned := pruneOld cutoff samples
  match pruned with
  | [] => (0, pruned)
  | s0 :: _ =>
    let totalBytes : ℚ := ((pruned.map Sample.bytes).sum : ℕ)
    let elapsed : ℚ := ((now - s0.time : ℤ) : ℚ) / 1000
    (if 0 < elapsed then totalBytes / elapsed else 0, pruned)

/-- The throughput figure as claim C9 words it: remove every sample recorded
more than the window before `now`, return 0 for an empty window, and
otherwise the sum of the remaining byte counts divided by the seconds elapsed
since the oldest remaining sample.  (Rational division by zero is zero.) -/
def specRecentSpeed (now : Int) (samples : List Sample) : ℚ :=
  let keep := samples.filter (fun s => decide (now - SPEED_WINDOW_MS ≤ s.time))
  match keep with
  | [] => 0
  | s0 :: _ =>
    (((keep.map Sample.bytes).sum : ℕ) : ℚ) / (((now - s0.time : ℤ) : ℚ) / 1000)

/-! ## The worker run (`main`, `downloadDomainQueue`): small-step embedding

`main` classifies every entry sequentially (preflight), then runs one
strictly-sequential queue per URL hostname, all queues concurrently, and
finally sets the terminal phase.  The cooperative interleaving of the
per-host queues is embedded as a small-step transition relation `WStep`:
a queue may start its next entry only when it has no entry in flight, the
byte-progress callback fires once per received chunk, and finishing an entry
records its `FileResult`.  External effects are the oracle fields of
`WorkerEnv`. -/

/-- The oracles a worker run consumes: the destination root (`TARGET_DIR`),
the local filesystem at preflight time, the probed remote size per entry
(`fetchFileSize`, 0 when unknown), and the HTTP response per download. -/
structure WorkerEnv where
  targetDir : String
  fs : String → Option LocalFile
  probeSize : Model → Nat
  http : ModelWithSize → HttpResponse

/-- Attach a probed size to a job entry (`{ ...model, size }`). -/
def Model.withSize (m : Model) (size : Nat) : ModelWithSize :=
  ⟨m.url, m.dest, m.sha256, size⟩

/-- The skip decision `main` computes for one entry during preflight. -/
def classify (env : WorkerEnv) (m : Model) : SkipResult :=
  checkNeedsDownload env.fs env.targetDir m (env.probeSize m)

/-- The `skipped` File Results the preflight loop pushes, in input order. -/
def preflightResults (env : WorkerEnv) (models : List Model) : List FileResult :=
  models.filterMap (fun m =>
    let d := classify env m
    if d.skip then some ⟨m.dest, .skipped, d.reason⟩ else none)

/-- The `modelsWithSize` list: entries classified as requiring download,
in input order, each with its probed size. -/
def toDownload (env : WorkerEnv) (models : List Model) : List ModelWithSize :=
  models.filterMap (fun m =>
    if (classify env m).skip then none else some (m.withSize (env.probeSize m)))

/-- `status.overallTotalBytes` after preflight: the probed sizes of exactly
the entries requiring download. -/
def overallTotal (env : WorkerEnv) (models : List Model) : Nat :=
  ((toDownload env models).map ModelWithSize.size).sum

/-- The File Result `downloadDomainQueue` pushes for a finished download. -/
def toFileResult (m : ModelWithSize) : DownloadResult → FileResult
  | .success => ⟨m.dest, .success, none⟩
  | .failed reason => ⟨m.dest, .failed, some reason⟩

/-- The chunk sizes the stream reader delivers for a response: none when the
status is non-success or the body is missing, else the body chunks. -/
def chunksOf (res : HttpResponse) : List Nat :=
  if res.ok = false then []
  else match res.body with
  | none => []
  | some b => b.chunks

/-- Total bytes the progress callback reports for one entry's download. -/
def chunkSum (env : WorkerEnv) (m : ModelWithSize) : Nat :=
  (chunksOf (env.http m)).sum

/-- Total bytes the progress callback reports across the whole run. -/
def chunkTotal (env : WorkerEnv) (models : List Model) : Nat :=
  ((toDownload env models).map (chunkSum env)).sum

/-- The distinct hostnames of the entries requiring download
(`Map.groupBy(modelsWithSize, getDomain)` keys). -/
def domainsOf (ms : List ModelWithSize) : List String :=
  (ms.map (fun m => hostname m.url)).dedup

/-- One host partition of `Map.groupBy` (order-preserving). -/
def partitionOf (ms : List ModelWithSize) (d : String) : List ModelWithSize :=
  ms.filter (fun m => decide (hostname m.url = d))

/-- The state of one host queue: entries not yet started, and the entry in
flight (with the chunks still to be received), if any. -/
structure DomainState where
  pending : List ModelWithSize
  current : Option (ModelWithSize × List Nat)
deriving DecidableEq, Repr

/-- The whole worker state: the mutable `status` fields the claims are
about, plus the control state of the preflight loop and the host queues. -/
structure WorkerState where
  phase : Phase
  pendingPreflight : List Model
  results : List FileResult
  downloadQueue : List ModelWithSize
  totalBytes : Nat
  downloadedBytes : Nat
  domains : List (String × DomainState)
deriving DecidableEq, Repr

/-- The worker state at process start. -/
def initState (models : List Model) : WorkerState :=
  ⟨.preflight, models, [], [], 0, 0, []⟩

/-- The host queues as built at the start of the download phase. -/
def initDomains (q : List ModelWithSize) : List (String × DomainState) :=
  (domainsOf q).map (fun d => (d, ⟨partitionOf q d, none⟩))

/-- One small step of the worker run.  Preflight steps are sequential;
download steps of distinct hosts may interleave arbitrarily, but a host
starts a new entry only when it has none in flight, exactly as the `await`
in the `for` loop of `downloadDomainQueue` enforces. -/
inductive WStep (env : WorkerEnv) : WorkerState → WorkerState → Prop where
  | classifySkip (s : WorkerState) (m : Model) (rest : List Model)
      (hp : s.phase = .preflight) (hq : s.pendingPreflight = m :: rest)
      (hc : (classify env m).skip = true) :
      WStep env s { s with
                    pendingPreflight := rest,
                    results := s.results ++
                      [⟨m.dest, .skipped, (classify env m).reason⟩] }
  | classifyDownload (s : WorkerState) (m : Model) (rest : List Model)
      (hp : s.phase = .preflight) (hq : s.pendingPreflight = m :: rest)
      (hc : (classify env m).skip = false) :
      WStep env s { s with
                    pendingPreflight := rest,
                    downloadQueue := s.downloadQueue ++
                      [m.withSize (env.probeSize m)],
                    totalBytes := s.totalBytes + env.probeSize m }
  | allSkipped (s : WorkerState)
      (hp : s.phase = .preflight) (hq : s.pendingPreflight = [])
      (hd : s.downloadQueue = []) :
      WStep env s { s with phase := .completed }
  | beginDownloading (s : WorkerState)
      (hp : s.phase = .preflight) (hq : s.pendingPreflight = [])
      (hd : s.downloadQueue ≠ []) :
      WStep env s { s with
                    phase := .downloading,
                    domains := initDomains s.downloadQueue }
  | startEntry (s : WorkerState) (d : String)
      (pre post : List (String × DomainState))
      (m : ModelWithSize) (rest : List ModelWithSize)
      (hp : s.phase = .downloading)
      (hd : s.domains = pre ++ (d, ⟨m :: rest, none⟩) :: post) :
      WStep env s { s with
                    domains :=
                      pre ++ (d, ⟨rest, some (m, chunksOf (env.http m))⟩) ::
                        post }
  | recvChunk (s : WorkerState) (d : String)
      (pre post : List (String × DomainState))
      (pend : List ModelWithSize) (m : ModelWithSize) (c : Nat) (cs : List Nat)
      (hp : s.phase = .downloading)
      (hd : s.domains = pre ++ (d, ⟨pend, some (m, c :: cs)⟩) :: post) :
      WStep env s { s with
                    domains := pre ++ (d, ⟨pend, some (m, cs)⟩) :: post,
                    downloadedBytes := s.downloadedBytes + c }
  | finishEntry (s : WorkerState) (d : String)
      (pre post : List (String × DomainState))
      (pend : List ModelWithSize) (m : ModelWithSize)
      (hp : s.phase = .downloading)
      (hd : s.domains = pre ++ (d, ⟨pend, some (m, [])⟩) :: post) :
      WStep env s { s with
                    domains := pre ++ (d, ⟨pend, none⟩) :: post,
                    results := s.results ++
                      [toFileResult m (downloadModel m (env.http m))] }
  | finishAll (s : WorkerState)
      (hp : s.phase = .downloading)
      (hd : ∀ p ∈ s.domains, p.2.pending = [] ∧ p.2.current = none) :
      WStep env s { s with
                    phase :=
                      if s.results.any
                          (fun r => decide (r.status = FStatus.failed))
                      then .failed else .completed }

/-- The states a worker run can be in, starting from `initState`. -/
def ReachableW (env : WorkerEnv) (models : List Model) (s : WorkerState) : Prop :=
  Relation.ReflTransGen (WStep env) (initState models) s

/-- Entries of one host queue not yet finished. -/
def DomainState.remaining (ds : DomainState) : List ModelWithSize :=
  ds.pending ++ (match ds.current with | some (m, _) => [m] | none => [])

/-- Destination paths not yet finished across all host queues. -/
def domainRemaining (s : WorkerState) : List String :=
  (s.domains.map (fun p => p.2.remaining.map ModelWithSize.dest)).flatten

/-- Destination paths of entries with no File Result yet: the entries not
yet classified, plus the queued-but-unstarted entries, plus entries in
flight. -/
def remainingDests (s : WorkerState) : List String :=
  s.pendingPreflight.map Model.dest ++
    (if s.domains.isEmpty then s.downloadQueue.map ModelWithSize.dest
     else domainRemaining s)

/-- The entries currently downloading (the `activeFiles` set content). -/
def activeModels (s : WorkerState) : List ModelWithSize :=
  s.domains.filterMap (fun p => p.2.current.map Prod.fst)

/-- Bytes one host queue will still report: unstarted entries in full plus
the chunks of the in-flight entry not yet received. -/
def domainFuture (env : WorkerEnv) (p : String × DomainState) : Nat :=
  (p.2.pending.map (chunkSum env)).sum +
    (match p.2.current with | some (_, cs) => cs.sum | none => 0)

/-- Bytes the progress callback will still report after state `s`. -/
def futureBytes (env : WorkerEnv) (s : WorkerState) : Nat :=
  ((toDownload env s.pendingPreflight).map (chunkSum env)).sum +
    (if s.domains.isEmpty then (s.downloadQueue.map (chunkSum env)).sum
     else (s.domains.map (domainFuture env)).sum)

/-- A terminal worker phase. -/
def isTerminal (s : WorkerState) : Prop :=
  s.phase = .completed ∨ s.phase = .failed

/-- The overall percentage figure of the progress line,
`overallDownloadedBytes / overallTotalBytes * 100` as a rational. -/
def percentOf (s : WorkerState) : ℚ :=
  ((s.downloadedBytes : ℚ) / (s.totalBytes : ℚ)) * 100

/-- The worker state after the whole preflight loop. -/
def afterPreflight (env : WorkerEnv) (models : List Model) : WorkerState :=
  ⟨.preflight, [], preflightResults env models, toDownload env models,
   overallTotal env models, 0, []⟩

/-- The run invariant: every fact about a reachable worker state the claims
need.  `perm` is the accounting invariant — the File Result files together
with the destinations of not-yet-finished entries are a permutation of the
input destinations. -/
structure WInv (env : WorkerEnv) (models : List Model) (s : WorkerState) : Prop where
  perm : List.Perm (s.results.map FileResult.file ++ remainingDests s)
      (models.map Model.dest)
  keysNodup : (s.domains.map Prod.fst).Nodup
  domKey : ∀ p ∈ s.domains, (∀ m ∈ p.2.pending, hostname m.url = p.1) ∧
      (∀ m cs, p.2.current = some (m, cs) → hostname m.url = p.1)
  preDomains : s.phase = .preflight → s.domains = []
  preResults : s.phase = .preflight → ∀ r ∈ s.results, r.status = .skipped
  queueTake : ∃ k, s.pendingPreflight = models.drop k ∧
      s.downloadQueue = toDownload env (models.take k)
  downNonempty : s.phase = .downloading →
      s.pendingPreflight = [] ∧ s.downloadQueue ≠ [] ∧ s.domains ≠ []
  failedHas : s.phase = .failed →
      (∃ r ∈ s.results, r.status = .failed) ∧ s.downloadQueue ≠ []
  completedNone : s.phase = .completed → ∀ r ∈ s.results, r.status ≠ .failed
  terminalDone : s.phase = .completed ∨ s.phase = .failed → remainingDests s = []
  totalB : s.totalBytes = (s.downloadQueue.map ModelWithSize.size).sum
  bytesConserve : s.downloadedBytes + futureBytes env s = chunkTotal env models

/-! ## The orchestration poller (`setup.ts`) -/

/-- The status document as far as the poller's control flow reads it: it
branches only on `phase`. -/
structure DStatus where
  phase : Phase
deriving DecidableEq, Repr

/-- One poll of the status endpooint: the wall-clock time at which
`fetchStatus` returns, and its result (`null` on network error, non-2xx or
timeout). -/
structure PollStep where
  time : Int
  result : Option DStatus
deriving DecidableEq, Repr

/-- What `pollDownloadProgress` does on a finite observation of the poll
sequence: return a terminal status, abort as unresponsive, or still be
looping when the observation ends. -/
inductive PollOutcome where
  | terminal (st : DStatus)
  | unresponsive
  | running
deriving DecidableEq, Repr

/-- `unresponsiveTimeoutMs`, the default 180000 ms = 180 s. -/
def UNRESPONSIVE_TIMEOUT_MS : Int := 180000

/-- `maxAttempts = 5` in `setup`. -/
def MAX_ATTEMPTS : Nat := 5

/-- Embedding of the `for (;;)` loop of `pollDownloadProgress` over a finite
observed poll sequence, carrying `lastSuccessTime`.  A successful poll
refreshes `lastSuccessTime` and exits on a terminal phase; a failed poll
aborts iff the time since the last success has reached the timeout. -/
def pollRun (timeoutMs : Int) : Int → List PollStep → PollOutcome
  | _, [] => .running
  | lastSuccessTime, p :: rest =>
    match p.result with
    | some st =>
      if st.phase = .completed ∨ st.phase = .failed then .terminal st
      else pollRun timeoutMs p.time rest
    | none =>
      if timeoutMs ≤ p.time - lastSuccessTime then .unresponsive
      else pollRun timeoutMs lastSuccessTime rest

/-- The value of `lastSuccessTime` after processing a prefix of polls. -/
def lastSuccessTimeAfter (init : Int) (pre : List PollStep) : Int :=
  pre.foldl (fun acc p => match p.result with | some _ => p.time | none => acc) init

/-- How one attempt of the `setup` retry loop ends: the pod never reached
RUNNING, the poll loop aborted as unresponsive, or a terminal status was
observed. -/
inductive AttemptOutcome where
  | startFailed
  | unresponsive
  | finished (st : DStatus)
deriving DecidableEq, Repr

/-- An attempt that ends without observing a terminal phase. -/
def AttemptOutcome.isAbort : AttemptOutcome → Bool
  | .startFailed => true
  | .unresponsive => true
  | .finished _ => false

/-- Control-plane actions of one `setup` run, in order. -/
inductive PodEvent where
  | createdPod (token : String)
  | reusedPod (token : String)
  | deletedPod
deriving DecidableEq, Repr

/-- The overall outcome of `setup`: worker completed; worker reported phase
`failed` (surfaced as an error listing failed entries); or every attempt
exhausted without a terminal phase (the distinct
"Download failed after 5 attempts due to unresponsive pods" error). -/
inductive SetupResult where
  | success (st : DStatus)
  | workerFailed (st : DStatus)
  | exhausted
deriving DecidableEq, Repr

/-- Embedding of the `for (attempt = 1; attempt <= maxAttempts; ...)` loop
of `setup`: `rem` attempts remain, the current one is numbered `attempt`.
On the first attempt an existing running pod may be reused together with its
`STATUS_TOKEN` (`reuse`); every other attempt creates a pod with a freshly
generated token (`freshToken attempt`, one `randomBytes` draw per attempt).
Aborted attempts delete the pod and continue; a terminal status deletes the
pod and exits the loop. -/
def setupLoop (outcome : Nat → AttemptOutcome) (freshToken : Nat → String)
    (reuse : Option String) : Nat → Nat → List PodEvent × Option DStatus
  | 0, _ => ([], none)
  | rem + 1, attempt =>
    let startEvent : PodEvent :=
      match reuse, attempt with
      | some t, 1 => .reusedPod t
      | _, _ => .createdPod (freshToken attempt)
    match outcome attempt with
    | .finished st => ([startEvent, .deletedPod], some st)
    | _ =>
      let next := setupLoop outcome freshToken reuse rem (attempt + 1)
      (startEvent :: .deletedPod :: next.1, next.2)

/-- The whole retry loop of `setup` plus its epilogue: no final status after
`MAX_ATTEMPTS` attempts throws the operation-level retry-exhaustion error;
a final status with phase `failed` throws the per-entry failure error; else
the setup succeeds. -/
def runSetup (outcome : Nat → AttemptOutcome) (freshToken : Nat → String)
    (reuse : Option String) : SetupResult × List PodEvent :=
  let r := setupLoop outcome freshToken reuse MAX_ATTEMPTS 1
  (match r.2 with
   | none => .exhausted
   | some st => if st.phase = .failed then .workerFailed st else .success st,
   r.1)

/-- A concrete worker status record for witnesses. -/
def sampleStatus : StatusInternal :=
  ⟨.preflight, [], 0, 0, 0, 0, [], none⟩

/-- A concrete job entry for witnesses: no configured hash. -/
def sampleModel : Model :=
  ⟨"https://example.com/file.bin", "m1.bin", none⟩

/-- A concrete job list for witnesses. -/
def sampleModels : List Model :=
  [sampleModel]

/-- A concrete oracle environment for witnesses: the destination is absent
locally, the probe reports 10 bytes, and the download delivers a single
15-byte chunk (an over-long transfer). -/
def sampleEnv : WorkerEnv :=
  ⟨"/workspace/models", fun _ => none, fun _ => 10,
   fun _ => ⟨true, 200, "OK", some ⟨[15], "h1"⟩⟩⟩

/-- The terminal state of the run of `sampleEnv` on `sampleModels`: the one
entry downloads 15 bytes against a probed size of 10 and fails verification,
leaving `overallDownloadedBytes` above `overallTotalBytes`. -/
def sampleFinal : WorkerState :=
  ⟨.failed, [],
   [⟨"m1.bin", .failed, some "size mismatch: expected 10, got 15"⟩],
   [⟨"https://example.com/file.bin", "m1.bin", none, 10⟩],
   10, 15, [("example.com", ⟨[], none⟩)]⟩

/-! ## Theorems -/

/-- C1: for every job entry and probed remote size, the skip decision of
`checkNeedsDownload` follows exactly the claimed precedence: no local file →
download; else a configured hash decides alone (skip "hash match" iff the
local sha256 equals it, download otherwise, regardless of sizes); else a
known (nonzero) remote size equal to the local size → skip "size match";
known and different → download; unknown → skip "file exists". -/
theorem C1_skip_precedence (fs : String → Option LocalFile) (targetDir : String)
    (m : Model) (remoteSize : Nat) :
    checkNeedsDownload fs targetDir m remoteSize =
      specSkipDecision (fs (targetDir ++ "/" ++ m.dest)) m.sha256 remoteSize := by
  cases hfs : fs (targetDir ++ "/" ++ m.dest) with
  | none => simp [checkNeedsDownload, specSkipDecision, hfs]
  | some f =>
    cases hsha : m.sha256 with
    | some h => simp [checkNeedsDownload, specSkipDecision, hfs, hsha]
    | none =>
      by_cases h0 : remoteSize = 0
      · simp [checkNeedsDownload, specSkipDecision, hfs, hsha, h0]
      · by_cases hsz : f.size = remoteSize <;>
          simp [checkNeedsDownload, specSkipDecision, hfs, hsha, h0, hsz,
            Nat.pos_of_ne_zero h0]

/-- C2: the per-entry download result classification of `downloadModel`
matches the claimed order exactly: non-success status → failed with code and
text; missing body → failed "no response body"; known nonzero probed size
differing from the bytes written → failed "size mismatch: expected S, got W";
configured hash differing from the recomputed hash → failed "hash mismatch";
else success (so with a hash configured, a matching hash is the only path to
success). -/
theorem C2_download_result_classification (m : ModelWithSize) (res : HttpResponse) :
    downloadModel m res = specDownloadClassify m res := by
  cases hok : res.ok with
  | false => simp [downloadModel, specDownloadClassify, hok]
  | true =>
    cases hb : res.body with
    | none => simp [downloadModel, specDownloadClassify, hok, hb]
    | some b =>
      cases hsha : m.sha256 with
      | none =>
        by_cases h0 : m.size = 0
        · simp [downloadModel, specDownloadClassify, hok, hb, hsha, h0]
        · by_cases hsz : b.chunks.sum = m.size <;>
            simp [downloadModel, specDownloadClassify, hok, hb, hsha, h0, hsz,
              Nat.pos_of_ne_zero h0]
      | some h =>
        by_cases h0 : m.size = 0
        · by_cases hh : b.hash = h <;>
            simp [downloadModel, specDownloadClassify, hok, hb, hsha, h0, hh]
        · by_cases hsz : b.chunks.sum = m.size
          · by_cases hh : b.hash = h <;>
              simp [downloadModel, specDownloadClassify, hok, hb, hsha, h0, hsz, hh]
          · simp [downloadModel, specDownloadClassify, hok, hb, hsha, h0, hsz,
              Nat.pos_of_ne_zero h0]

/-- C6 counterexample: the claim that the authorization header is a function
of the hostname alone is false: two URLs with hostname `example.com` get
different headers, and a URL whose hostname is neither known host carries
the HF bearer token, because `getAuthHeaders` substring-matches the whole
URL string. -/
theorem C6_counterexample :
    (¬ ∀ (hfToken civitaiToken u1 u2 : String), hostname u1 = hostname u2 →
        getAuthHeaders hfToken civitaiToken u1 =
          getAuthHeaders hfToken civitaiToken u2) ∧
    hostname "https://example.com/huggingface.co" ≠ "huggingface.co" ∧
    hostname "https://example.com/huggingface.co" ≠ "civitai.com" ∧
    getAuthHeaders "t" "" "https://example.com/huggingface.co" = some "Bearer t" := by
  refine ⟨fun h => ?_, by decide, by decide, by decide⟩
  have h2 := h "t" "" "https://example.com/a" "https://example.com/huggingface.co"
    (by decide)
  rw [show getAuthHeaders "t" "" "https://example.com/a" = none from by decide,
    show getAuthHeaders "t" "" "https://example.com/huggingface.co"
      = some "Bearer t" from by decide] at h2
  exact Option.noConfusion h2

/-- C6 amended: the authorization header is selected by substring containment
on the full URL string, huggingface.co checked before civitai.com, and a
bearer token is attached only when the corresponding token is nonempty; any
other URL gets no header. -/
theorem C6_amended_substring_auth (hfToken civitaiToken url : String) :
    getAuthHeaders hfToken civitaiToken url =
      specAuthSubstring hfToken civitaiToken url := by
  unfold getAuthHeaders specAuthSubstring
  rfl

/-- C7: the status server answers 200 with the serialized status on
`GET /status` when the bearer token matches or no token is configured,
401 with empty body whenever a configured token does not match, 404 with
empty body on any other path (once the token check passes), and never
mutates the worker status. -/
theorem C7_status_endpoint (statusToken : String) (st : StatusInternal)
    (req : HttpRequest) :
    (handleStatusRequest statusToken st req).2 = st ∧
    ((statusToken = "" ∨ req.authorization = some ("Bearer " ++ statusToken)) →
      (req.url = "/status" →
        (handleStatusRequest statusToken st req).1
          = ⟨200, some (serializeStatus st)⟩) ∧
      (req.url ≠ "/status" →
        (handleStatusRequest statusToken st req).1 = ⟨404, none⟩)) ∧
    (statusToken ≠ "" → req.authorization ≠ some ("Bearer " ++ statusToken) →
      (handleStatusRequest statusToken st req).1 = ⟨401, none⟩) := by
  unfold handleStatusRequest
  by_cases h1 : statusToken = "" <;>
    by_cases h2 : req.authorization = some ("Bearer " ++ statusToken) <;>
      by_cases h3 : req.url = "/status" <;>
        simp [h1, h2, h3]

/-- Witness for C7 at a concrete request: matching token on `/status`
yields 200 with the serialized document. -/
theorem C7_status_endpoint_witness :
    (handleStatusRequest "tok" sampleStatus ⟨"/status", some "Bearer tok"⟩).1
      = ⟨200, some (serializeStatus sampleStatus)⟩ :=
  ((C7_status_endpoint "tok" sampleStatus ⟨"/status", some "Bearer tok"⟩).2.1
    (Or.inr (by decide))).1 rfl

/-- For a chronologically ordered sample list, the front-pruning loop of
`getRecentSpeed` removes exactly the samples older than the cutoff. -/
theorem pruneOld_eq_filter (cutoff : Int) :
    ∀ (samples : List Sample),
      samples.Pairwise (fun a b => a.time ≤ b.time) →
      pruneOld cutoff samples
        = samples.filter (fun s => decide (cutoff ≤ s.time))
  | [], _ => rfl
  | s :: rest, h => by
    rcases List.pairwise_cons.mp h with ⟨hall, hrest⟩
    by_cases hs : s.time < cutoff
    · rw [pruneOld, if_pos hs, List.filter_cons,
        if_neg (by simp [not_le.mpr hs]), pruneOld_eq_filter cutoff rest hrest]
    · rw [pruneOld, if_neg hs, List.filter_cons, if_pos (by simpa using not_lt.mp hs),
        List.filter_eq_self.mpr
          (fun b hb => by simpa using le_trans (not_lt.mp hs) (hall b hb))]

/-- C9: for a chronologically recorded sample history, the reported
throughput is the trailing-window average the claim describes: samples
recorded more than 60 s before `now` are removed (both from the returned
figure and, by mutation, from the stored history), and the figure is the sum
of the remaining byte counts divided by the seconds elapsed since the oldest
remaining sample, with an empty window yielding 0. -/
theorem C9_throughput_window (now : Int) (samples : List Sample)
    (hsort : samples.Pairwise (fun a b => a.time ≤ b.time))
    (hpast : ∀ s ∈ samples, s.time ≤ now) :
    (getRecentSpeed now samples).1 = specRecentSpeed now samples ∧
    (getRecentSpeed now samples).2
      = samples.filter (fun s => decide (now - SPEED_WINDOW_MS ≤ s.time)) := by
  have hprune := pruneOld_eq_filter (now - SPEED_WINDOW_MS) samples hsort
  simp only [getRecentSpeed, specRecentSpeed, hprune]
  cases hk : samples.filter (fun s => decide (now - SPEED_WINDOW_MS ≤ s.time)) with
  | nil => exact ⟨rfl, rfl⟩
  | cons s0 tl =>
    refine ⟨?_, rfl⟩
    dsimp only
    have hs0 : s0 ∈ samples := List.mem_of_mem_filter (hk ▸ List.mem_cons_self s0 tl)
    have hel : (0 : ℚ) ≤ ((now - s0.time : ℤ) : ℚ) / 1000 := by
      apply div_nonneg _ (by norm_num)
      have hz : (0 : ℤ) ≤ now - s0.time := by
        have := hpast s0 hs0
        omega
      exact_mod_cast hz
    rcases eq_or_lt_of_le hel with heq | hlt
    · rw [if_neg (by rw [← heq]; exact lt_irrefl 0), ← heq, div_zero]
    · rw [if_pos hlt]

/-- Witness for C9 at a concrete history: with `now = 100000` and samples at
30000 (7 bytes) and 90000 (5 bytes), the 30000 sample falls outside the
60 s window and is pruned. -/
theorem C9_throughput_window_witness :
    (getRecentSpeed 100000 [⟨30000, 7⟩, ⟨90000, 5⟩]).2 = [⟨90000, 5⟩] := by
  have h := C9_throughput_window 100000 [⟨30000, 7⟩, ⟨90000, 5⟩]
    (by decide) (by decide)
  rw [h.2]
  decide

/-- The all-abort unfolding of the `setup` retry loop: with no pod to reuse
and every attempt aborting, each of the `rem` remaining attempts creates a
pod with its own freshly drawn token and deletes it, and no final status is
produced. -/
theorem setupLoop_all_abort (outcome : Nat → AttemptOutcome)
    (freshToken : Nat → String)
    (habort : ∀ k, (outcome k).isAbort = true) :
    ∀ (rem attempt : Nat),
      setupLoop outcome freshToken none rem attempt =
        (((List.range rem).map (fun i =>
            [PodEvent.createdPod (freshToken (attempt + i)), PodEvent.deletedPod])).flatten,
         none)
  | 0, _ => rfl
  | rem + 1, attempt => by
    have hstep := setupLoop_all_abort outcome freshToken habort rem (attempt + 1)
    have hcongr : ∀ i : Nat, attempt + 1 + i = attempt + (i + 1) := fun i => by omega
    cases ho : outcome attempt with
    | finished st =>
      have := habort attempt
      rw [ho] at this
      exact absurd this (by simp [AttemptOutcome.isAbort])
    | startFailed =>
      simp [setupLoop, ho, hstep, List.range_succ_eq_map, Function.comp_def, hcongr]
    | unresponsive =>
      simp [setupLoop, ho, hstep, List.range_succ_eq_map, Function.comp_def, hcongr]

/-- C8: (1) a failed status poll arriving before the 180 s unresponsive
threshold never by itself ends the attempt — the loop just continues;
(2) the poll loop returns `unresponsive` only when some failing poll finds
that at least 180000 ms have passed since the last successful poll (all
polls after that success having failed, by definition of
`lastSuccessTimeAfter`), every earlier successful poll being non-terminal;
(3) when every attempt aborts, `setup` performs exactly `MAX_ATTEMPTS = 5`
attempts, each deleting its worker pod and each creating its pod with a
freshly generated status token, and ends in the operation-level
retry-exhaustion failure, a result distinct from any per-entry failure. -/
theorem C8_poller_retry :
    (∀ (last : Int) (p : PollStep) (rest : List PollStep),
       p.result = none → p.time - last < UNRESPONSIVE_TIMEOUT_MS →
       pollRun UNRESPONSIVE_TIMEOUT_MS last (p :: rest)
         = pollRun UNRESPONSIVE_TIMEOUT_MS last rest) ∧
    (∀ (last : Int) (tr : List PollStep),
       pollRun UNRESPONSIVE_TIMEOUT_MS last tr = .unresponsive →
       ∃ pre p post, tr = pre ++ p :: post ∧ p.result = none ∧
         UNRESPONSIVE_TIMEOUT_MS ≤ p.time - lastSuccessTimeAfter last pre ∧
         ∀ q ∈ pre, ∀ st, q.result = some st →
           st.phase ≠ .completed ∧ st.phase ≠ .failed) ∧
    (∀ (outcome : Nat → AttemptOutcome) (freshToken : Nat → String),
       (∀ k, (outcome k).isAbort = true) →
       runSetup outcome freshToken none =
         (.exhausted,
          ((List.range MAX_ATTEMPTS).map (fun i =>
             [PodEvent.createdPod (freshToken (1 + i)), PodEvent.deletedPod])).flatten)) := by
  refine ⟨?_, ?_, ?_⟩
  · intro last p rest hfail hlt
    simp only [pollRun, hfail]
    rw [if_neg (not_le.mpr hlt)]
  · intro last tr
    induction tr generalizing last with
    | nil => intro h; exact absurd h (by simp [pollRun])
    | cons p rest ih =>
      intro h
      cases hp : p.result with
      | some st =>
        simp only [pollRun, hp] at h
        by_cases hterm : st.phase = .completed ∨ st.phase = .failed
        · rw [if_pos hterm] at h; exact absurd h (by simp)
        · rw [if_neg hterm] at h
          obtain ⟨pre, q, post, htr, hq, hbound, hpre⟩ := ih p.time h
          refine ⟨p :: pre, q, post, by rw [htr]; rfl, hq, ?_, ?_⟩
          · have : lastSuccessTimeAfter last (p :: pre)
                = lastSuccessTimeAfter p.time pre := by
              simp [lastSuccessTimeAfter, hp]
            rw [this]; exact hbound
          · intro r hr st' hst'
            rcases List.mem_cons.mp hr with hr | hr
            · subst hr
              rw [hp] at hst'
              cases Option.some.inj hst'
              exact ⟨fun hc => hterm (Or.inl hc), fun hc => hterm (Or.inr hc)⟩
            · exact hpre r hr st' hst'
      | none =>
        simp only [pollRun, hp] at h
        by_cases htime : UNRESPONSIVE_TIMEOUT_MS ≤ p.time - last
        · exact ⟨[], p, rest, rfl, hp, by simpa [lastSuccessTimeAfter] using htime,
            by simp⟩
        · rw [if_neg htime] at h
          obtain ⟨pre, q, post, htr, hq, hbound, hpre⟩ := ih last h
          refine ⟨p :: pre, q, post, by rw [htr]; rfl, hq, ?_, ?_⟩
          · have : lastSuccessTimeAfter last (p :: pre)
                = lastSuccessTimeAfter last pre := by
              simp [lastSuccessTimeAfter, hp]
            rw [this]; exact hbound
          · intro r hr st' hst'
            rcases List.mem_cons.mp hr with hr | hr
            · subst hr; rw [hp] at hst'; exact absurd hst' (by simp)
            · exact hpre r hr st' hst'
  · intro outcome freshToken habort
    have h := setupLoop_all_abort outcome freshToken habort MAX_ATTEMPTS 1
    simp only [runSetup, h]

/-! ### Worker-run helper lemmas -/

theorem toDownload_nil (env : WorkerEnv) : toDownload env [] = [] := rfl

theorem toDownload_cons (env : WorkerEnv) (m : Model) (rest : List Model) :
    toDownload env (m :: rest) =
      (if (classify env m).skip then [] else [m.withSize (env.probeSize m)])
        ++ toDownload env rest := by
  cases hc : (classify env m).skip <;>
    simp [toDownload, List.filterMap_cons, hc]

theorem toDownload_append (env : WorkerEnv) (l1 l2 : List Model) :
    toDownload env (l1 ++ l2) = toDownload env l1 ++ toDownload env l2 := by
  simp [toDownload, List.filterMap_append]

theorem preflightResults_cons (env : WorkerEnv) (m : Model) (rest : List Model) :
    preflightResults env (m :: rest) =
      (if (classify env m).skip
        then [(⟨m.dest, .skipped, (classify env m).reason⟩ : FileResult)] else [])
        ++ preflightResults env rest := by
  cases hc : (classify env m).skip <;>
    simp [preflightResults, List.filterMap_cons, hc]

theorem take_drop_cons {α : Type} (l : List α) (k : Nat) (a : α) (rest : List α)
    (h : l.drop k = a :: rest) :
    l.take (k + 1) = l.take k ++ [a] ∧ l.drop (k + 1) = rest := by
  constructor
  · rw [List.take_succ]
    have h0 := List.getElem?_drop l k 0
    rw [h] at h0
    simp only [Nat.add_zero, List.getElem?_cons_zero] at h0
    simp [← h0]
  · rw [← List.drop_drop, h]
    rfl

theorem toFileResult_file (m : ModelWithSize) (r : DownloadResult) :
    (toFileResult m r).file = m.dest := by
  cases r <;> rfl

/-- Splitting a flattened map over a list with a distinguished middle
element. -/
theorem flatten_map_middle {α β : Type} (f : α → List β) (pre post : List α) (x : α) :
    ((pre ++ x :: post).map f).flatten
      = (pre.map f).flatten ++ (f x ++ (post.map f).flatten) := by
  simp [List.flatten_append]

/-- Splitting a flattened list with a distinguished middle element. -/
theorem flatten_middle {β : Type} (pre post : List (List β)) (x : List β) :
    (pre ++ x :: post).flatten = pre.flatten ++ (x ++ post.flatten) := by
  simp [List.flatten_append]

/-- Splitting a sum of a map over a list with a distinguished middle
element. -/
theorem sum_map_middle {α : Type} (f : α → Nat) (pre post : List α) (x : α) :
    ((pre ++ x :: post).map f).sum
      = (pre.map f).sum + (f x + (post.map f).sum) := by
  simp [List.sum_append]

/-- A list whose every element has its key in a duplicate-free key list is a
permutation of the concatenation of its per-key filters. -/
theorem flatten_partition_perm {α β : Type} [DecidableEq β] (key : α → β) :
    ∀ (ks : List β) (Q : List α), ks.Nodup → (∀ a ∈ Q, key a ∈ ks) →
      List.Perm ((ks.map (fun k => Q.filter (fun a => decide (key a = k)))).flatten) Q
  | [], Q, _, hcov => by
    have hQ : Q = [] := by
      cases Q with
      | nil => rfl
      | cons a t => exact absurd (hcov a (List.mem_cons_self a t)) (List.not_mem_nil _)
    subst hQ
    simp
  | k :: ks, Q, hnd, hcov => by
    have hk : k ∉ ks := (List.nodup_cons.mp hnd).1
    have hnd' : ks.Nodup := (List.nodup_cons.mp hnd).2
    have hcov' : ∀ a ∈ Q.filter (fun a => !decide (key a = k)), key a ∈ ks := by
      intro a ha
      have hmem := List.mem_of_mem_filter ha
      have hne : ¬ key a = k := by simpa using List.of_mem_filter ha
      rcases List.mem_cons.mp (hcov a hmem) with h | h
      · exact absurd h hne
      · exact h
    have ih := flatten_partition_perm key ks
      (Q.filter (fun a => !decide (key a = k))) hnd' hcov'
    have hmap : ks.map (fun k2 => Q.filter (fun a => decide (key a = k2)))
        = ks.map (fun k2 =>
            (Q.filter (fun a => !decide (key a = k))).filter
              (fun a => decide (key a = k2))) := by
      apply List.map_congr_left
      intro k2 hk2
      rw [List.filter_filter]
      apply List.filter_congr
      intro a _
      by_cases ha : key a = k2
      · have hne : ¬ k2 = k := fun hc => hk (hc ▸ hk2)
        simp [ha, hne]
      · simp [ha]
    have hsplit : ((k :: ks).map (fun k2 => Q.filter (fun a => decide (key a = k2)))).flatten
        = Q.filter (fun a => decide (key a = k))
          ++ (ks.map (fun k2 => Q.filter (fun a => decide (key a = k2)))).flatten := by
      simp
    rw [hsplit, hmap]
    exact (List.Perm.append_left _ ih).trans (List.filter_append_perm _ Q)

theorem initDomains_keys (q : List ModelWithSize) :
    (initDomains q).map Prod.fst = domainsOf q := by
  simp [initDomains, List.map_map, Function.comp_def]

theorem mem_initDomains (q : List ModelWithSize) (p : String × DomainState)
    (h : p ∈ initDomains q) :
    p.2.pending = partitionOf q p.1 ∧ p.2.current = none := by
  simp only [initDomains, List.mem_map] at h
  obtain ⟨d, _, rfl⟩ := h
  exact ⟨rfl, rfl⟩

theorem initDomains_pending_perm (q : List ModelWithSize) :
    List.Perm ((initDomains q).map (fun p => p.2.pending)).flatten q := by
  have h := flatten_partition_perm (fun m => hostname m.url) (domainsOf q) q
    (List.nodup_dedup _)
    (fun a ha => List.mem_dedup.mpr (List.mem_map_of_mem _ ha))
  simpa [initDomains, List.map_map, partitionOf, Function.comp_def] using h

theorem remainingDests_domains_nil (s : WorkerState) (h : s.domains = []) :
    remainingDests s = s.pendingPreflight.map Model.dest
      ++ s.downloadQueue.map ModelWithSize.dest := by
  simp [remainingDests, h]

theorem remainingDests_domains_ne (s : WorkerState) (h : s.domains ≠ []) :
    remainingDests s = s.pendingPreflight.map Model.dest ++ domainRemaining s := by
  have : s.domains.isEmpty = false := by
    simpa [List.isEmpty_iff] using h
  simp [remainingDests, this]

/-- The invariant holds at process start. -/
theorem WInv_init (env : WorkerEnv) (models : List Model) :
    WInv env models (initState models) := by
  refine ⟨?_, ?_, ?_, ?_, ?_, ?_, ?_, ?_, ?_, ?_, ?_, ?_⟩
  · simp [initState, remainingDests]
  · simp [initState]
  · simp [initState]
  · intro _; rfl
  · intro _ r hr; exact absurd hr (List.not_mem_nil r)
  · exact ⟨0, rfl, rfl⟩
  · intro h; exact absurd h (by simp [initState])
  · intro h; exact absurd h (by simp [initState])
  · intro h; exact absurd h (by simp [initState])
  · intro h; rcases h with h | h <;> exact absurd h (by simp [initState])
  · rfl
  · simp [initState, futureBytes, chunkTotal]

theorem inv_classifySkip (env : WorkerEnv) (models : List Model) (s : WorkerState)
    (m : Model) (rest : List Model)
    (hp : s.phase = .preflight) (hq : s.pendingPreflight = m :: rest)
    (hc : (classify env m).skip = true) (hinv : WInv env models s) :
    WInv env models
      ⟨s.phase, rest, s.results ++ [⟨m.dest, .skipped, (classify env m).reason⟩],
       s.downloadQueue, s.totalBytes, s.downloadedBytes, s.domains⟩ := by
  have hdom : s.domains = [] := hinv.preDomains hp
  obtain ⟨k, hpend, hqueue⟩ := hinv.queueTake
  obtain ⟨htake, hdrop⟩ := take_drop_cons models k m rest (hpend.symm.trans hq)
  refine ⟨?_, ?_, ?_, ?_, ?_, ?_, ?_, ?_, ?_, ?_, ?_, ?_⟩
  · have e1 : remainingDests
        ⟨s.phase, rest, s.results ++ [⟨m.dest, .skipped, (classify env m).reason⟩],
         s.downloadQueue, s.totalBytes, s.downloadedBytes, s.domains⟩
        = rest.map Model.dest ++ s.downloadQueue.map ModelWithSize.dest := by
      simp [remainingDests, hdom]
    have e0 : remainingDests s
        = (m.dest :: rest.map Model.dest) ++ s.downloadQueue.map ModelWithSize.dest := by
      simp [remainingDests, hdom, hq]
    rw [e1]
    have hold := hinv.perm
    rw [e0] at hold
    refine List.Perm.trans ?_ hold
    simp only [List.map_append, List.map_cons, List.map_nil]
    rw [← Multiset.coe_eq_coe]
    repeat rw [← Multiset.coe_add]
    simp only [← Multiset.cons_coe, ← Multiset.singleton_add, Multiset.coe_nil]
    abel
  · exact hinv.keysNodup
  · exact hinv.domKey
  · intro _; exact hdom
  · intro _ r hr
    rcases List.mem_append.mp hr with hr | hr
    · exact hinv.preResults hp r hr
    · rw [List.mem_singleton.mp hr]
  · refine ⟨k + 1, hdrop.symm, ?_⟩
    show s.downloadQueue = toDownload env (models.take (k + 1))
    rw [htake, toDownload_append, hqueue]
    simp [toDownload, List.filterMap_cons, hc]
  · intro h; simp [hp] at h
  · intro h; simp [hp] at h
  · intro h; simp [hp] at h
  · intro h; rcases h with h | h <;> simp [hp] at h
  · exact hinv.totalB
  · show s.downloadedBytes + futureBytes env
      ⟨s.phase, rest, s.results ++ [⟨m.dest, .skipped, (classify env m).reason⟩],
       s.downloadQueue, s.totalBytes, s.downloadedBytes, s.domains⟩
      = chunkTotal env models
    have hfb : futureBytes env
        ⟨s.phase, rest, s.results ++ [⟨m.dest, .skipped, (classify env m).reason⟩],
         s.downloadQueue, s.totalBytes, s.downloadedBytes, s.domains⟩
        = futureBytes env s := by
      simp [futureBytes, hq, toDownload_cons, hc]
    rw [hfb]
    exact hinv.bytesConserve

theorem inv_classifyDownload (env : WorkerEnv) (models : List Model) (s : WorkerState)
    (m : Model) (rest : List Model)
    (hp : s.phase = .preflight) (hq : s.pendingPreflight = m :: rest)
    (hc : (classify env m).skip = false) (hinv : WInv env models s) :
    WInv env models
      ⟨s.phase, rest, s.results,
       s.downloadQueue ++ [m.withSize (env.probeSize m)],
       s.totalBytes + env.probeSize m, s.downloadedBytes, s.domains⟩ := by
  have hdom : s.domains = [] := hinv.preDomains hp
  obtain ⟨k, hpend, hqueue⟩ := hinv.queueTake
  obtain ⟨htake, hdrop⟩ := take_drop_cons models k m rest (hpend.symm.trans hq)
  refine ⟨?_, ?_, ?_, ?_, ?_, ?_, ?_, ?_, ?_, ?_, ?_, ?_⟩
  · have e1 : remainingDests
        ⟨s.phase, rest, s.results,
         s.downloadQueue ++ [m.withSize (env.probeSize m)],
         s.totalBytes + env.probeSize m, s.downloadedBytes, s.domains⟩
        = rest.map Model.dest
          ++ (s.downloadQueue.map ModelWithSize.dest ++ [m.dest]) := by
      simp [remainingDests, hdom, Model.withSize]
    have e0 : remainingDests s
        = (m.dest :: rest.map Model.dest) ++ s.downloadQueue.map ModelWithSize.dest := by
      simp [remainingDests, hdom, hq]
    rw [e1]
    have hold := hinv.perm
    rw [e0] at hold
    refine List.Perm.trans ?_ hold
    rw [← Multiset.coe_eq_coe]
    repeat rw [← Multiset.coe_add]
    simp only [← Multiset.cons_coe, ← Multiset.singleton_add, Multiset.coe_nil]
    abel
  · exact hinv.keysNodup
  · exact hinv.domKey
  · intro _; exact hdom
  · intro _ r hr; exact hinv.preResults hp r hr
  · refine ⟨k + 1, hdrop.symm, ?_⟩
    show s.downloadQueue ++ [m.withSize (env.probeSize m)]
      = toDownload env (models.take (k + 1))
    rw [htake, toDownload_append, hqueue]
    simp [toDownload, List.filterMap_cons, hc]
  · intro h; simp [hp] at h
  · intro h; simp [hp] at h
  · intro h; simp [hp] at h
  · intro h; rcases h with h | h <;> simp [hp] at h
  · show s.totalBytes + env.probeSize m
      = ((s.downloadQueue ++ [m.withSize (env.probeSize m)]).map ModelWithSize.size).sum
    rw [hinv.totalB]
    simp [Model.withSize]
  · show s.downloadedBytes + futureBytes env
      ⟨s.phase, rest, s.results,
       s.downloadQueue ++ [m.withSize (env.probeSize m)],
       s.totalBytes + env.probeSize m, s.downloadedBytes, s.domains⟩
      = chunkTotal env models
    have hfb : futureBytes env
        ⟨s.phase, rest, s.results,
         s.downloadQueue ++ [m.withSize (env.probeSize m)],
         s.totalBytes + env.probeSize m, s.downloadedBytes, s.domains⟩
        = futureBytes env s := by
      simp [futureBytes, hq, toDownload_cons, hc, hdom]
      omega
    rw [hfb]
    exact hinv.bytesConserve

theorem inv_allSkipped (env : WorkerEnv) (models : List Model) (s : WorkerState)
    (hp : s.phase = .preflight) (hq : s.pendingPreflight = [])
    (hd : s.downloadQueue = []) (hinv : WInv env models s) :
    WInv env models
      ⟨.completed, s.pendingPreflight, s.results, s.downloadQueue,
       s.totalBytes, s.downloadedBytes, s.domains⟩ := by
  have hdom : s.domains = [] := hinv.preDomains hp
  refine ⟨?_, ?_, ?_, ?_, ?_, ?_, ?_, ?_, ?_, ?_, ?_, ?_⟩
  · exact hinv.perm
  · exact hinv.keysNodup
  · exact hinv.domKey
  · intro h; simp at h
  · intro h; simp at h
  · exact hinv.queueTake
  · intro h; simp at h
  · intro h; simp at h
  · intro _ r hr
    have := hinv.preResults hp r hr
    simp [this]
  · intro _
    show remainingDests
      ⟨.completed, s.pendingPreflight, s.results, s.downloadQueue,
       s.totalBytes, s.downloadedBytes, s.domains⟩ = []
    simp [remainingDests, hq, hd, hdom]
  · exact hinv.totalB
  · exact hinv.bytesConserve

theorem inv_beginDownloading (env : WorkerEnv) (models : List Model) (s : WorkerState)
    (hp : s.phase = .preflight) (hq : s.pendingPreflight = [])
    (hd : s.downloadQueue ≠ []) (hinv : WInv env models s) :
    WInv env models
      ⟨.downloading, s.pendingPreflight, s.results, s.downloadQueue,
       s.totalBytes, s.downloadedBytes, initDomains s.downloadQueue⟩ := by
  have hdom : s.domains = [] := hinv.preDomains hp
  have hdomne : initDomains s.downloadQueue ≠ [] := by
    intro hcontra
    apply hd
    have h1 : domainsOf s.downloadQueue = [] := by
      simpa [initDomains] using hcontra
    have h2 : s.downloadQueue.map (fun m => hostname m.url) = [] :=
      (List.dedup_eq_nil _).mp h1
    exact List.map_eq_nil_iff.mp h2
  have hpendmap : ∀ p ∈ initDomains s.downloadQueue,
      p.2.remaining = p.2.pending := by
    intro p hp'
    obtain ⟨-, hcur⟩ := mem_initDomains _ p hp'
    simp [DomainState.remaining, hcur]
  -- the flattened queue contents are a permutation of the download queue
  have hpendperm : List.Perm
      (((initDomains s.downloadQueue).map (fun p => p.2.pending)).flatten)
      s.downloadQueue := initDomains_pending_perm s.downloadQueue
  refine ⟨?_, ?_, ?_, ?_, ?_, ?_, ?_, ?_, ?_, ?_, ?_, ?_⟩
  · have e1 : remainingDests
        ⟨.downloading, s.pendingPreflight, s.results, s.downloadQueue,
         s.totalBytes, s.downloadedBytes, initDomains s.downloadQueue⟩
        = ((initDomains s.downloadQueue).map
            (fun p => p.2.remaining.map ModelWithSize.dest)).flatten := by
      have hne : (initDomains s.downloadQueue).isEmpty = false := by
        simpa [List.isEmpty_iff] using hdomne
      simp [remainingDests, domainRemaining, hq, hne]
    have e0 : remainingDests s = s.downloadQueue.map ModelWithSize.dest := by
      simp [remainingDests, hq, hdom]
    have e2 : ((initDomains s.downloadQueue).map
          (fun p => p.2.remaining.map ModelWithSize.dest)).flatten
        = ((initDomains s.downloadQueue).map
            (fun p => p.2.pending.map ModelWithSize.dest)).flatten := by
      congr 1
      apply List.map_congr_left
      intro p hp'
      rw [hpendmap p hp']
    have e3 : ((initDomains s.downloadQueue).map
          (fun p => p.2.pending.map ModelWithSize.dest)).flatten
        = (((initDomains s.downloadQueue).map
            (fun p => p.2.pending)).flatten).map ModelWithSize.dest := by
      rw [List.map_flatten, List.map_map]
      simp [Function.comp_def]
    have hperm2 : List.Perm
        (((initDomains s.downloadQueue).map (fun p => p.2.pending)).flatten.map
          ModelWithSize.dest)
        (s.downloadQueue.map ModelWithSize.dest) := hpendperm.map _
    rw [e1, e2, e3]
    have hold := hinv.perm
    rw [e0] at hold
    exact ((hperm2.append_left (s.results.map FileResult.file)).trans hold)
  · show ((initDomains s.downloadQueue).map Prod.fst).Nodup
    rw [initDomains_keys]
    exact List.nodup_dedup _
  · intro p hp'
    simp only [initDomains, List.mem_map] at hp'
    obtain ⟨d, -, rfl⟩ := hp'
    constructor
    · intro m hm
      have := List.of_mem_filter hm
      simpa using this
    · intro m cs hcur
      exact absurd hcur (by simp)
  · intro h; simp at h
  · intro h; simp at h
  · exact hinv.queueTake
  · intro _; exact ⟨hq, hd, hdomne⟩
  · intro h; simp at h
  · intro h; simp at h
  · intro h; rcases h with h | h <;> simp at h
  · exact hinv.totalB
  · show s.downloadedBytes + futureBytes env
      ⟨.downloading, s.pendingPreflight, s.results, s.downloadQueue,
       s.totalBytes, s.downloadedBytes, initDomains s.downloadQueue⟩
      = chunkTotal env models
    have hsum : ((initDomains s.downloadQueue).map (domainFuture env)).sum
        = (s.downloadQueue.map (chunkSum env)).sum := by
      have e4 : ((initDomains s.downloadQueue).map (domainFuture env)).sum
          = ((initDomains s.downloadQueue).map (fun p =>
              (p.2.pending.map (chunkSum env)).sum)).sum := by
        congr 1
        apply List.map_congr_left
        intro p hp'
        obtain ⟨-, hcur⟩ := mem_initDomains _ p hp'
        simp [domainFuture, hcur]
      have e5 : ((initDomains s.downloadQueue).map (fun p =>
            (p.2.pending.map (chunkSum env)).sum)).sum
          = (((initDomains s.downloadQueue).map
              (fun p => p.2.pending)).flatten.map (chunkSum env)).sum := by
        rw [List.map_flatten, List.map_map, List.sum_flatten, List.map_map]
        rfl
      rw [e4, e5]
      exact (hpendperm.map (chunkSum env)).sum_eq
    have hne : (initDomains s.downloadQueue).isEmpty = false := by
      simpa [List.isEmpty_iff] using hdomne
    have hfb1 : futureBytes env
        ⟨.downloading, s.pendingPreflight, s.results, s.downloadQueue,
         s.totalBytes, s.downloadedBytes, initDomains s.downloadQueue⟩
        = (s.downloadQueue.map (chunkSum env)).sum := by
      simp [futureBytes, hq, hne, hsum, toDownload_nil]
    have hfb0 : futureBytes env s = (s.downloadQueue.map (chunkSum env)).sum := by
      simp [futureBytes, hq, hdom, toDownload_nil]
    rw [hfb1, ← hfb0]
    exact hinv.bytesConserve

theorem inv_startEntry (env : WorkerEnv) (models : List Model) (s : WorkerState)
    (d : String) (pre post : List (String × DomainState))
    (m : ModelWithSize) (rest : List ModelWithSize)
    (hp : s.phase = .downloading)
    (hd : s.domains = pre ++ (d, ⟨m :: rest, none⟩) :: post)
    (hinv : WInv env models s) :
    WInv env models
      ⟨s.phase, s.pendingPreflight, s.results, s.downloadQueue,
       s.totalBytes, s.downloadedBytes,
       pre ++ (d, ⟨rest, some (m, chunksOf (env.http m))⟩) :: post⟩ := by
  obtain ⟨hpend0, hqne, -⟩ := hinv.downNonempty hp
  have hmidOld : (d, (⟨m :: rest, none⟩ : DomainState)) ∈ s.domains := by
    rw [hd]; exact List.mem_append.mpr (Or.inr (List.mem_cons_self _ _))
  refine ⟨?_, ?_, ?_, ?_, ?_, ?_, ?_, ?_, ?_, ?_, ?_, ?_⟩
  · have hrem : List.Perm
        (remainingDests
          ⟨s.phase, s.pendingPreflight, s.results, s.downloadQueue,
           s.totalBytes, s.downloadedBytes,
           pre ++ (d, ⟨rest, some (m, chunksOf (env.http m))⟩) :: post⟩)
        (remainingDests s) := by
      rw [remainingDests_domains_ne _ (by simp),
        remainingDests_domains_ne _ (by rw [hd]; simp)]
      apply List.Perm.append_left
      simp only [domainRemaining, hd, List.map_append, List.map_cons,
        flatten_middle, DomainState.remaining, List.map_nil, List.append_nil]
      apply List.Perm.append_left
      apply List.Perm.append_right
      exact List.perm_append_singleton _ _
    exact (hrem.append_left (s.results.map FileResult.file)).trans hinv.perm
  · have hkeys : ((pre ++ (d, (⟨rest, some (m, chunksOf (env.http m))⟩ : DomainState)) :: post).map
        Prod.fst) = s.domains.map Prod.fst := by
      rw [hd]; simp
    show ((pre ++ (d, (⟨rest, some (m, chunksOf (env.http m))⟩ : DomainState)) :: post).map
      Prod.fst).Nodup
    rw [hkeys]; exact hinv.keysNodup
  · intro p hp'
    rcases List.mem_append.mp hp' with hpre | hpost
    · exact hinv.domKey p (by rw [hd]; exact List.mem_append.mpr (Or.inl hpre))
    · rcases List.mem_cons.mp hpost with heq | hpost
      · subst heq
        have hold := hinv.domKey _ hmidOld
        refine ⟨fun m2 hm2 => hold.1 m2 (List.mem_cons_of_mem _ hm2), ?_⟩
        intro m2 cs hcur
        cases Option.some.inj hcur
        exact hold.1 m (List.mem_cons_self _ _)
      · exact hinv.domKey p (by
          rw [hd]
          exact List.mem_append.mpr (Or.inr (List.mem_cons_of_mem _ hpost)))
  · intro h; simp [hp] at h
  · intro h; simp [hp] at h
  · exact hinv.queueTake
  · intro _; exact ⟨hpend0, hqne, by simp⟩
  · intro h; simp [hp] at h
  · intro h; simp [hp] at h
  · intro h; rcases h with h | h <;> simp [hp] at h
  · exact hinv.totalB
  · show s.downloadedBytes + futureBytes env
      ⟨s.phase, s.pendingPreflight, s.results, s.downloadQueue,
       s.totalBytes, s.downloadedBytes,
       pre ++ (d, ⟨rest, some (m, chunksOf (env.http m))⟩) :: post⟩
      = chunkTotal env models
    have hmid : domainFuture env (d, ⟨rest, some (m, chunksOf (env.http m))⟩)
        = domainFuture env (d, ⟨m :: rest, none⟩) := by
      simp [domainFuture, chunkSum]
      omega
    have hfb : futureBytes env
        ⟨s.phase, s.pendingPreflight, s.results, s.downloadQueue,
         s.totalBytes, s.downloadedBytes,
         pre ++ (d, ⟨rest, some (m, chunksOf (env.http m))⟩) :: post⟩
        = futureBytes env s := by
      simp only [futureBytes, hpend0, toDownload_nil, List.map_nil, List.sum_nil,
        hd, List.isEmpty_eq_true, List.append_eq_nil, List.cons_ne_nil, and_false,
        if_false, sum_map_middle, hmid]
    rw [hfb]
    exact hinv.bytesConserve

theorem inv_recvChunk (env : WorkerEnv) (models : List Model) (s : WorkerState)
    (d : String) (pre post : List (String × DomainState))
    (pend : List ModelWithSize) (m : ModelWithSize) (c : Nat) (cs : List Nat)
    (hp : s.phase = .downloading)
    (hd : s.domains = pre ++ (d, ⟨pend, some (m, c :: cs)⟩) :: post)
    (hinv : WInv env models s) :
    WInv env models
      ⟨s.phase, s.pendingPreflight, s.results, s.downloadQueue,
       s.totalBytes, s.downloadedBytes + c,
       pre ++ (d, ⟨pend, some (m, cs)⟩) :: post⟩ := by
  obtain ⟨hpend0, hqne, -⟩ := hinv.downNonempty hp
  have hmidOld : (d, (⟨pend, some (m, c :: cs)⟩ : DomainState)) ∈ s.domains := by
    rw [hd]; exact List.mem_append.mpr (Or.inr (List.mem_cons_self _ _))
  refine ⟨?_, ?_, ?_, ?_, ?_, ?_, ?_, ?_, ?_, ?_, ?_, ?_⟩
  · have hrem : remainingDests
        ⟨s.phase, s.pendingPreflight, s.results, s.downloadQueue,
         s.totalBytes, s.downloadedBytes + c,
         pre ++ (d, ⟨pend, some (m, cs)⟩) :: post⟩
        = remainingDests s := by
      rw [remainingDests_domains_ne _ (by simp),
        remainingDests_domains_ne _ (by rw [hd]; simp)]
      simp only [domainRemaining, hd, List.map_append, List.map_cons,
        flatten_middle, DomainState.remaining, List.map_nil, List.append_nil]
    rw [hrem]
    exact hinv.perm
  · have hkeys : ((pre ++ (d, (⟨pend, some (m, cs)⟩ : DomainState)) :: post).map
        Prod.fst) = s.domains.map Prod.fst := by
      rw [hd]; simp
    show ((pre ++ (d, (⟨pend, some (m, cs)⟩ : DomainState)) :: post).map
      Prod.fst).Nodup
    rw [hkeys]; exact hinv.keysNodup
  · intro p hp'
    rcases List.mem_append.mp hp' with hpre | hpost
    · exact hinv.domKey p (by rw [hd]; exact List.mem_append.mpr (Or.inl hpre))
    · rcases List.mem_cons.mp hpost with heq | hpost
      · subst heq
        have hold := hinv.domKey _ hmidOld
        refine ⟨fun m2 hm2 => hold.1 m2 hm2, ?_⟩
        intro m2 cs2 hcur
        cases Option.some.inj hcur
        exact hold.2 m (c :: cs) rfl
      · exact hinv.domKey p (by
          rw [hd]
          exact List.mem_append.mpr (Or.inr (List.mem_cons_of_mem _ hpost)))
  · intro h; simp [hp] at h
  · intro h; simp [hp] at h
  · exact hinv.queueTake
  · intro _; exact ⟨hpend0, hqne, by simp⟩
  · intro h; simp [hp] at h
  · intro h; simp [hp] at h
  · intro h; rcases h with h | h <;> simp [hp] at h
  · exact hinv.totalB
  · show (s.downloadedBytes + c) + futureBytes env
      ⟨s.phase, s.pendingPreflight, s.results, s.downloadQueue,
       s.totalBytes, s.downloadedBytes + c,
       pre ++ (d, ⟨pend, some (m, cs)⟩) :: post⟩
      = chunkTotal env models
    have hconserve := hinv.bytesConserve
    have hfb1 : futureBytes env
        ⟨s.phase, s.pendingPreflight, s.results, s.downloadQueue,
         s.totalBytes, s.downloadedBytes + c,
         pre ++ (d, ⟨pend, some (m, cs)⟩) :: post⟩
        = ((pre.map (domainFuture env)).sum
          + (((pend.map (chunkSum env)).sum + cs.sum)
          + (post.map (domainFuture env)).sum)) := by
      simp only [futureBytes, hpend0, toDownload_nil, List.map_nil, List.sum_nil,
        List.isEmpty_eq_true, List.append_eq_nil, List.cons_ne_nil, and_false,
        if_false, sum_map_middle, domainFuture]
      exact Nat.zero_add _
    have hfb0 : futureBytes env s
        = ((pre.map (domainFuture env)).sum
          + (((pend.map (chunkSum env)).sum + (c + cs.sum))
          + (post.map (domainFuture env)).sum)) := by
      simp only [futureBytes, hpend0, toDownload_nil, List.map_nil, List.sum_nil,
        hd, List.isEmpty_eq_true, List.append_eq_nil, List.cons_ne_nil, and_false,
        if_false, sum_map_middle, domainFuture, List.sum_cons]
      exact Nat.zero_add _
    rw [hfb1]
    rw [hfb0] at hconserve
    linarith [hconserve]

theorem inv_finishEntry (env : WorkerEnv) (models : List Model) (s : WorkerState)
    (d : String) (pre post : List (String × DomainState))
    (pend : List ModelWithSize) (m : ModelWithSize)
    (hp : s.phase = .downloading)
    (hd : s.domains = pre ++ (d, ⟨pend, some (m, [])⟩) :: post)
    (hinv : WInv env models s) :
    WInv env models
      ⟨s.phase, s.pendingPreflight,
       s.results ++ [toFileResult m (downloadModel m (env.http m))],
       s.downloadQueue, s.totalBytes, s.downloadedBytes,
       pre ++ (d, ⟨pend, none⟩) :: post⟩ := by
  obtain ⟨hpend0, hqne, -⟩ := hinv.downNonempty hp
  have hmidOld : (d, (⟨pend, some (m, [])⟩ : DomainState)) ∈ s.domains := by
    rw [hd]; exact List.mem_append.mpr (Or.inr (List.mem_cons_self _ _))
  refine ⟨?_, ?_, ?_, ?_, ?_, ?_, ?_, ?_, ?_, ?_, ?_, ?_⟩
  · refine List.Perm.trans ?_ hinv.perm
    rw [remainingDests_domains_ne _ (by simp),
      remainingDests_domains_ne _ (by rw [hd]; simp)]
    simp only [domainRemaining, hd, List.map_append, List.map_cons,
      flatten_middle, DomainState.remaining, List.map_nil, List.append_nil,
      toFileResult_file]
    rw [← Multiset.coe_eq_coe]
    repeat rw [← Multiset.coe_add]
    simp only [← Multiset.cons_coe, ← Multiset.singleton_add, Multiset.coe_nil]
    abel
  · have hkeys : ((pre ++ (d, (⟨pend, none⟩ : DomainState)) :: post).map
        Prod.fst) = s.domains.map Prod.fst := by
      rw [hd]; simp
    show ((pre ++ (d, (⟨pend, none⟩ : DomainState)) :: post).map Prod.fst).Nodup
    rw [hkeys]; exact hinv.keysNodup
  · intro p hp'
    rcases List.mem_append.mp hp' with hpre | hpost
    · exact hinv.domKey p (by rw [hd]; exact List.mem_append.mpr (Or.inl hpre))
    · rcases List.mem_cons.mp hpost with heq | hpost
      · subst heq
        have hold := hinv.domKey _ hmidOld
        refine ⟨fun m2 hm2 => hold.1 m2 hm2, ?_⟩
        intro m2 cs2 hcur
        exact absurd hcur (by simp)
      · exact hinv.domKey p (by
          rw [hd]
          exact List.mem_append.mpr (Or.inr (List.mem_cons_of_mem _ hpost)))
  · intro h; simp [hp] at h
  · intro h; simp [hp] at h
  · exact hinv.queueTake
  · intro _; exact ⟨hpend0, hqne, by simp⟩
  · intro h; simp [hp] at h
  · intro h; simp [hp] at h
  · intro h; rcases h with h | h <;> simp [hp] at h
  · exact hinv.totalB
  · show s.downloadedBytes + futureBytes env
      ⟨s.phase, s.pendingPreflight,
       s.results ++ [toFileResult m (downloadModel m (env.http m))],
       s.downloadQueue, s.totalBytes, s.downloadedBytes,
       pre ++ (d, ⟨pend, none⟩) :: post⟩
      = chunkTotal env models
    have hmid : domainFuture env (d, ⟨pend, none⟩)
        = domainFuture env (d, ⟨pend, some (m, [])⟩) := by
      simp [domainFuture]
    have hfb : futureBytes env
        ⟨s.phase, s.pendingPreflight,
         s.results ++ [toFileResult m (downloadModel m (env.http m))],
         s.downloadQueue, s.totalBytes, s.downloadedBytes,
         pre ++ (d, ⟨pend, none⟩) :: post⟩
        = futureBytes env s := by
      simp only [futureBytes, hpend0, toDownload_nil, List.map_nil, List.sum_nil,
        hd, List.isEmpty_eq_true, List.append_eq_nil, List.cons_ne_nil, and_false,
        if_false, sum_map_middle, hmid]
    rw [hfb]
    exact hinv.bytesConserve

theorem inv_finishAll (env : WorkerEnv) (models : List Model) (s : WorkerState)
    (hp : s.phase = .downloading)
    (hdall : ∀ p ∈ s.domains, p.2.pending = [] ∧ p.2.current = none)
    (hinv : WInv env models s) :
    WInv env models
      ⟨if s.results.any (fun r => decide (r.status = FStatus.failed))
        then .failed else .completed,
       s.pendingPreflight, s.results, s.downloadQueue,
       s.totalBytes, s.downloadedBytes, s.domains⟩ := by
  obtain ⟨hpend0, hqne, hdomne⟩ := hinv.downNonempty hp
  have hremnil : remainingDests s = [] := by
    rw [remainingDests_domains_ne s hdomne, hpend0]
    simp only [List.map_nil, List.nil_append, domainRemaining]
    rw [List.flatten_eq_nil_iff]
    intro x hx
    obtain ⟨p, hp', rfl⟩ := List.mem_map.mp hx
    obtain ⟨h1, h2⟩ := hdall p hp'
    simp [DomainState.remaining, h1, h2]
  refine ⟨?_, ?_, ?_, ?_, ?_, ?_, ?_, ?_, ?_, ?_, ?_, ?_⟩
  · exact hinv.perm
  · exact hinv.keysNodup
  · exact hinv.domKey
  · intro h
    cases hb : s.results.any (fun r => decide (r.status = FStatus.failed)) <;>
      simp [hb] at h
  · intro h
    cases hb : s.results.any (fun r => decide (r.status = FStatus.failed)) <;>
      simp [hb] at h
  · exact hinv.queueTake
  · intro h
    cases hb : s.results.any (fun r => decide (r.status = FStatus.failed)) <;>
      simp [hb] at h
  · intro h
    cases hb : s.results.any (fun r => decide (r.status = FStatus.failed)) with
    | false => simp [hb] at h
    | true =>
      obtain ⟨r, hr, hrf⟩ := List.any_eq_true.mp hb
      exact ⟨⟨r, hr, by simpa using hrf⟩, hqne⟩
  · intro h r hr
    cases hb : s.results.any (fun r => decide (r.status = FStatus.failed)) with
    | true => simp [hb] at h
    | false =>
      intro hrf
      have hany : s.results.any (fun r => decide (r.status = FStatus.failed)) = true :=
        List.any_eq_true.mpr ⟨r, hr, by simp [hrf]⟩
      rw [hany] at hb
      exact Bool.noConfusion hb
  · intro _
    exact hremnil
  · exact hinv.totalB
  · exact hinv.bytesConserve

/-- Every step preserves the run invariant. -/
theorem WInv_preserve (env : WorkerEnv) (models : List Model)
    {s s2 : WorkerState} (hstep : WStep env s s2) (hinv : WInv env models s) :
    WInv env models s2 := by
  cases hstep with
  | classifySkip m rest hp hq hc =>
    exact inv_classifySkip env models s m rest hp hq hc hinv
  | classifyDownload m rest hp hq hc =>
    exact inv_classifyDownload env models s m rest hp hq hc hinv
  | allSkipped hp hq hd =>
    exact inv_allSkipped env models s hp hq hd hinv
  | beginDownloading hp hq hd =>
    exact inv_beginDownloading env models s hp hq hd hinv
  | startEntry d pre post m rest hp hd =>
    exact inv_startEntry env models s d pre post m rest hp hd hinv
  | recvChunk d pre post pend m c cs hp hd =>
    exact inv_recvChunk env models s d pre post pend m c cs hp hd hinv
  | finishEntry d pre post pend m hp hd =>
    exact inv_finishEntry env models s d pre post pend m hp hd hinv
  | finishAll hp hd =>
    exact inv_finishAll env models s hp hd hinv

/-- Every reachable worker state satisfies the run invariant. -/
theorem reachable_WInv (env : WorkerEnv) (models : List Model) (s : WorkerState)
    (h : ReachableW env models s) : WInv env models s := by
  induction h with
  | refl => exact WInv_init env models
  | tail hsteps hstep ih => exact WInv_preserve env models hstep ih

/-- Witness for C8: a single failed poll 1 s in does not abort (the loop on
that one-element observation is still running), and with every attempt
unresponsive the setup operation ends in the retry-exhaustion failure. -/
theorem C8_poller_retry_witness :
    pollRun UNRESPONSIVE_TIMEOUT_MS 0 [⟨1000, none⟩] = PollOutcome.running ∧
    (runSetup (fun _ => .unresponsive) (fun k => toString k) none).1
      = SetupResult.exhausted := by
  constructor
  · rw [C8_poller_retry.1 0 ⟨1000, none⟩ [] rfl (by decide)]
    rfl
  · rw [C8_poller_retry.2.2 (fun _ => .unresponsive) (fun k => toString k)
      (fun _ => rfl)]

theorem overallTotal_cons (env : WorkerEnv) (m : Model) (rest : List Model) :
    overallTotal env (m :: rest)
      = (if (classify env m).skip then 0 else env.probeSize m)
        + overallTotal env rest := by
  cases hc : (classify env m).skip <;>
    simp [overallTotal, toDownload_cons, hc, Model.withSize]

/-- Executing the whole preflight loop from any mid-preflight state. -/
theorem preflight_run (env : WorkerEnv) (pending : List Model) :
    ∀ (R : List FileResult) (Q : List ModelWithSize) (B D : Nat),
      Relation.ReflTransGen (WStep env)
        ⟨.preflight, pending, R, Q, B, D, []⟩
        ⟨.preflight, [], R ++ preflightResults env pending,
         Q ++ toDownload env pending, B + overallTotal env pending, D, []⟩ := by
  induction pending with
  | nil =>
    intro R Q B D
    simpa [preflightResults, toDownload, overallTotal] using
      (Relation.ReflTransGen.refl :
        Relation.ReflTransGen (WStep env) ⟨.preflight, [], R, Q, B, D, []⟩
          ⟨.preflight, [], R, Q, B, D, []⟩)
  | cons m rest ih =>
    intro R Q B D
    cases hc : (classify env m).skip with
    | true =>
      refine Relation.ReflTransGen.head
        (WStep.classifySkip ⟨.preflight, m :: rest, R, Q, B, D, []⟩ m rest
          rfl rfl hc) ?_
      have hres := ih (R ++ [⟨m.dest, .skipped, (classify env m).reason⟩]) Q B D
      simp only [List.append_assoc, List.singleton_append] at hres
      simp [preflightResults_cons, toDownload_cons, overallTotal_cons, hc]
      exact hres
    | false =>
      refine Relation.ReflTransGen.head
        (WStep.classifyDownload ⟨.preflight, m :: rest, R, Q, B, D, []⟩ m rest
          rfl rfl hc) ?_
      have hres := ih R (Q ++ [m.withSize (env.probeSize m)]) (B + env.probeSize m) D
      simp only [List.append_assoc, List.singleton_append, Nat.add_assoc] at hres
      simp [preflightResults_cons, toDownload_cons, overallTotal_cons, hc,
        Nat.add_assoc]
      exact hres

/-- The state at the end of preflight is reachable. -/
theorem reach_afterPreflight (env : WorkerEnv) (models : List Model) :
    ReachableW env models (afterPreflight env models) := by
  have h := preflight_run env models [] [] 0 0
  simpa [afterPreflight, initState] using h

/-- When some entry requires download, the state that has just entered the
downloading phase is reachable. -/
theorem reach_downloading (env : WorkerEnv) (models : List Model)
    (hne : toDownload env models ≠ []) :
    ReachableW env models
      ⟨.downloading, [], preflightResults env models, toDownload env models,
       overallTotal env models, 0, initDomains (toDownload env models)⟩ :=
  Relation.ReflTransGen.tail (reach_afterPreflight env models)
    (WStep.beginDownloading (afterPreflight env models) rfl rfl hne)

/-- Once preflight is over, the accumulated download queue is the
needs-download list of the whole job list. -/
theorem queue_eq_of_pending_nil (env : WorkerEnv) (models : List Model)
    (s : WorkerState) (hinv : WInv env models s)
    (h : s.pendingPreflight = []) :
    s.downloadQueue = toDownload env models := by
  obtain ⟨k, h1, h2⟩ := hinv.queueTake
  rw [h] at h1
  have hlen : models.length ≤ k := List.drop_eq_nil_iff.mp h1.symm
  rw [List.take_of_length_le hlen] at h2
  exact h2

/-- Destinations still pending are empty at a terminal state, hence the
preflight queue is fully processed. -/
theorem pending_nil_of_terminal (env : WorkerEnv) (models : List Model)
    (s : WorkerState) (hinv : WInv env models s) (ht : isTerminal s) :
    s.pendingPreflight = [] := by
  have hrem := hinv.terminalDone ht
  rw [remainingDests] at hrem
  have := (List.append_eq_nil.mp hrem).1
  exact List.map_eq_nil_iff.mp this

/-- At a terminal state no bytes remain to be reported. -/
theorem terminal_futureBytes_zero (env : WorkerEnv) (models : List Model)
    (s : WorkerState) (hinv : WInv env models s) (ht : isTerminal s) :
    futureBytes env s = 0 := by
  have hrem := hinv.terminalDone ht
  have hpend : s.pendingPreflight = [] :=
    pending_nil_of_terminal env models s hinv ht
  rw [futureBytes, hpend, toDownload_nil]
  simp only [List.map_nil, List.sum_nil, Nat.zero_add]
  cases hdom : s.domains.isEmpty with
  | true =>
    rw [if_pos rfl]
    have hdnil : s.domains = [] := List.isEmpty_iff.mp hdom
    rw [remainingDests_domains_nil s hdnil, hpend] at hrem
    simp only [List.map_nil, List.nil_append] at hrem
    have : s.downloadQueue = [] := List.map_eq_nil_iff.mp hrem
    simp [this]
  | false =>
    rw [if_neg (by simp)]
    have hdne : s.domains ≠ [] := by
      intro hc
      rw [hc] at hdom
      simp at hdom
    rw [remainingDests_domains_ne s hdne, hpend] at hrem
    simp only [List.map_nil, List.nil_append, domainRemaining] at hrem
    rw [List.flatten_eq_nil_iff] at hrem
    apply List.sum_eq_zero
    intro x hx
    obtain ⟨p, hp', rfl⟩ := List.mem_map.mp hx
    have hpnil : p.2.remaining.map ModelWithSize.dest = [] :=
      hrem _ (List.mem_map_of_mem _ hp')
    have hrnil : p.2.remaining = [] := List.map_eq_nil_iff.mp hpnil
    rw [DomainState.remaining] at hrnil
    obtain ⟨hpe, hce⟩ := List.append_eq_nil.mp hrnil
    have hcur : p.2.current = none := by
      cases hc : p.2.current with
      | none => rfl
      | some v =>
        rw [hc] at hce
        obtain ⟨m2, cs2⟩ := v
        exact absurd hce (by simp)
    simp [domainFuture, hpe, hcur]

/-- Among a domain list with duplicate-free keys whose queue contents match
their keys, the hostnames of the in-flight entries are pairwise distinct. -/
theorem active_hostnames_nodup (L : List (String × DomainState))
    (hkeys : (L.map Prod.fst).Nodup)
    (hkey : ∀ p ∈ L, ∀ m cs, p.2.current = some (m, cs) → hostname m.url = p.1) :
    ((L.filterMap (fun p => p.2.current.map Prod.fst)).map
      (fun m => hostname m.url)).Nodup := by
  induction L with
  | nil => simp
  | cons p rest ih =>
    have hkeys' : (rest.map Prod.fst).Nodup := (List.nodup_cons.mp hkeys).2
    have hhead : p.1 ∉ rest.map Prod.fst := (List.nodup_cons.mp hkeys).1
    have hkey' : ∀ q ∈ rest, ∀ m cs, q.2.current = some (m, cs) →
        hostname m.url = q.1 :=
      fun q hq => hkey q (List.mem_cons_of_mem _ hq)
    rw [List.filterMap_cons]
    cases hcur : p.2.current with
    | none =>
      simp only [Option.map_none']
      exact ih hkeys' hkey'
    | some v =>
      obtain ⟨m, cs⟩ := v
      simp only [Option.map_some', List.map_cons]
      rw [List.nodup_cons]
      refine ⟨?_, ih hkeys' hkey'⟩
      intro hmem
      obtain ⟨m2, hm2, hh⟩ := List.mem_map.mp hmem
      obtain ⟨q, hq, hq2⟩ := List.mem_filterMap.mp hm2
      have h1 : hostname m2.url = q.1 := by
        cases hc2 : q.2.current with
        | none => rw [hc2] at hq2; exact absurd hq2 (by simp)
        | some a =>
          obtain ⟨m3, cs3⟩ := a
          rw [hc2] at hq2
          simp only [Option.map_some', Option.some.injEq] at hq2
          subst hq2
          exact hkey' q hq _ cs3 hc2
      have h2 : hostname m.url = p.1 :=
        hkey p (List.mem_cons_self _ _) m cs hcur
      rw [hh] at h1
      apply hhead
      have hpq : p.1 = q.1 := h2.symm.trans h1
      rw [hpq]
      exact List.mem_map_of_mem Prod.fst hq

/-- C3: with pairwise-distinct destination paths, at every reachable point
of a worker run the File Results together with the not-yet-finished
destinations are a permutation of the input destinations (so the result list
holds exactly one entry per entry already classified skipped or whose
download has terminated), the result count never exceeds the entry count,
no destination is ever recorded twice, and at a terminal state the result
list has exactly one entry per input entry with the same destination set. -/
theorem C3_result_accounting (env : WorkerEnv) (models : List Model)
    (hnd : (models.map Model.dest).Nodup) :
    (∀ s, ReachableW env models s →
      List.Perm (s.results.map FileResult.file ++ remainingDests s)
        (models.map Model.dest)
      ∧ s.results.length + (remainingDests s).length = models.length
      ∧ s.results.length ≤ models.length
      ∧ (s.results.map FileResult.file).Nodup)
    ∧ (∀ s, ReachableW env models s → isTerminal s →
      s.results.length = models.length
      ∧ List.Perm (s.results.map FileResult.file) (models.map Model.dest)) := by
  constructor
  · intro s hs
    have hinv := reachable_WInv env models s hs
    have hperm := hinv.perm
    have hlen : s.results.length + (remainingDests s).length = models.length := by
      have := hperm.length_eq
      simpa using this
    refine ⟨hperm, hlen, by omega, ?_⟩
    have hnd2 : (s.results.map FileResult.file ++ remainingDests s).Nodup :=
      hperm.nodup_iff.mpr hnd
    exact hnd2.of_append_left
  · intro s hs ht
    have hinv := reachable_WInv env models s hs
    have hperm := hinv.perm
    rw [hinv.terminalDone ht, List.append_nil] at hperm
    constructor
    · have := hperm.length_eq
      simpa using this
    · exact hperm

/-- Witness for C3: at the start of the sample run no result is recorded
yet, and the accounting invariant already holds. -/
theorem C3_result_accounting_witness :
    List.Perm ((initState sampleModels).results.map FileResult.file
        ++ remainingDests (initState sampleModels))
      (sampleModels.map Model.dest) :=
  ((C3_result_accounting sampleEnv sampleModels (by decide)).1
    (initState sampleModels) Relation.ReflTransGen.refl).1

/-- C4: at every reachable instant of a worker run, the hostnames of the
entries currently downloading are pairwise distinct — at most one in-flight
download per remote host; the step relation itself only lets a host start
its next entry after the previous entry of that host has finished and its
result been recorded. -/
theorem C4_at_most_one_per_host (env : WorkerEnv) (models : List Model)
    (s : WorkerState) (h : ReachableW env models s) :
    ((activeModels s).map (fun m => hostname m.url)).Nodup := by
  have hinv := reachable_WInv env models s h
  exact active_hostnames_nodup s.domains hinv.keysNodup
    (fun p hp => (hinv.domKey p hp).2)

/-- Witness for C4 at the initial state of the sample run. -/
theorem C4_at_most_one_per_host_witness :
    ((activeModels (initState sampleModels)).map
      (fun m => hostname m.url)).Nodup :=
  C4_at_most_one_per_host sampleEnv sampleModels (initState sampleModels)
    Relation.ReflTransGen.refl

/-- C5: the phase machine.  The run starts in `preflight`; no step leaves a
terminal phase; every step moves along
preflight → (preflight | downloading | completed) or
downloading → (downloading | completed | failed); a downloading state is
reachable iff some entry requires download; when every entry is skipped the
run never passes through `downloading` or `failed` and reaches `completed`
directly; and at any reachable state the phase is `failed` only with some
failed File Result and `completed` only with none. -/
theorem C5_phase_machine (env : WorkerEnv) (models : List Model) :
    (initState models).phase = .preflight
    ∧ (∀ s s2 : WorkerState, WStep env s s2 →
        s.phase ≠ .completed ∧ s.phase ≠ .failed)
    ∧ (∀ s s2 : WorkerState, WStep env s s2 →
        (s.phase = .preflight ∧ (s2.phase = .preflight ∨ s2.phase = .downloading
          ∨ s2.phase = .completed))
        ∨ (s.phase = .downloading ∧ (s2.phase = .downloading
          ∨ s2.phase = .completed ∨ s2.phase = .failed)))
    ∧ ((∃ s, ReachableW env models s ∧ s.phase = .downloading)
        ↔ toDownload env models ≠ [])
    ∧ (toDownload env models = [] →
        (∀ s, ReachableW env models s →
          s.phase ≠ .downloading ∧ s.phase ≠ .failed)
        ∧ ∃ s, ReachableW env models s ∧ s.phase = .completed)
    ∧ (∀ s, ReachableW env models s →
        (s.phase = .failed → ∃ r ∈ s.results, r.status = .failed)
        ∧ (s.phase = .completed → ∀ r ∈ s.results, r.status ≠ .failed)) := by
  refine ⟨rfl, ?_, ?_, ?_, ?_, ?_⟩
  · intro s s2 hstep
    cases hstep with
    | classifySkip m rest hp hq hc => rw [hp]; exact ⟨by simp, by simp⟩
    | classifyDownload m rest hp hq hc => rw [hp]; exact ⟨by simp, by simp⟩
    | allSkipped hp hq hd => rw [hp]; exact ⟨by simp, by simp⟩
    | beginDownloading hp hq hd => rw [hp]; exact ⟨by simp, by simp⟩
    | startEntry d pre post m rest hp hd => rw [hp]; exact ⟨by simp, by simp⟩
    | recvChunk d pre post pend m c cs hp hd => rw [hp]; exact ⟨by simp, by simp⟩
    | finishEntry d pre post pend m hp hd => rw [hp]; exact ⟨by simp, by simp⟩
    | finishAll hp hd => rw [hp]; exact ⟨by simp, by simp⟩
  · intro s s2 hstep
    cases hstep with
    | classifySkip m rest hp hq hc => exact Or.inl ⟨hp, Or.inl hp⟩
    | classifyDownload m rest hp hq hc => exact Or.inl ⟨hp, Or.inl hp⟩
    | allSkipped hp hq hd => exact Or.inl ⟨hp, Or.inr (Or.inr rfl)⟩
    | beginDownloading hp hq hd => exact Or.inl ⟨hp, Or.inr (Or.inl rfl)⟩
    | startEntry d pre post m rest hp hd => exact Or.inr ⟨hp, Or.inl hp⟩
    | recvChunk d pre post pend m c cs hp hd => exact Or.inr ⟨hp, Or.inl hp⟩
    | finishEntry d pre post pend m hp hd => exact Or.inr ⟨hp, Or.inl hp⟩
    | finishAll hp hd =>
      refine Or.inr ⟨hp, ?_⟩
      cases hb : s.results.any (fun r => decide (r.status = FStatus.failed)) with
      | true => exact Or.inr (Or.inr (by simp [hb]))
      | false => exact Or.inr (Or.inl (by simp [hb]))
  · constructor
    · rintro ⟨s, hs, hph⟩
      have hinv := reachable_WInv env models s hs
      obtain ⟨hpend, hqne, -⟩ := hinv.downNonempty hph
      rw [queue_eq_of_pending_nil env models s hinv hpend] at hqne
      exact hqne
    · intro hne
      exact ⟨_, reach_downloading env models hne, rfl⟩
  · intro hnil
    constructor
    · intro s hs
      have hinv := reachable_WInv env models s hs
      constructor
      · intro hph
        obtain ⟨hpend, hqne, -⟩ := hinv.downNonempty hph
        rw [queue_eq_of_pending_nil env models s hinv hpend, hnil] at hqne
        exact hqne rfl
      · intro hph
        obtain ⟨-, hqne⟩ := hinv.failedHas hph
        have hpend : s.pendingPreflight = [] :=
          pending_nil_of_terminal env models s hinv (Or.inr hph)
        rw [queue_eq_of_pending_nil env models s hinv hpend, hnil] at hqne
        exact hqne rfl
    · refine ⟨⟨.completed, [], preflightResults env models,
        toDownload env models, overallTotal env models, 0, []⟩, ?_, rfl⟩
      refine Relation.ReflTransGen.tail (reach_afterPreflight env models) ?_
      exact WStep.allSkipped (afterPreflight env models) rfl rfl hnil
  · intro s hs
    have hinv := reachable_WInv env models s hs
    exact ⟨fun hph => (hinv.failedHas hph).1, hinv.completedNone⟩

/-- Witness for C5: in the sample run one entry requires download, and a
state in phase `downloading` is indeed reached. -/
theorem C5_phase_machine_witness :
    ∃ s, ReachableW sampleEnv sampleModels s ∧ s.phase = Phase.downloading :=
  (C5_phase_machine sampleEnv sampleModels).2.2.2.1.mpr (by decide)

theorem overallTotal_filterMap (env : WorkerEnv) (models : List Model) :
    overallTotal env models
      = (models.filterMap (fun m =>
          if (classify env m).skip then none else some (env.probeSize m))).sum := by
  induction models with
  | nil => rfl
  | cons m rest ih =>
    rw [overallTotal_cons, List.filterMap_cons]
    cases hc : (classify env m).skip with
    | true => simp [hc, ih]
    | false => simp [hc, ih]

/-- The sample run executed to its terminal state: the single entry is
classified for download (probed size 10), downloaded in one 15-byte chunk,
fails size verification, and the run ends in phase `failed`. -/
theorem reach_sampleFinal : ReachableW sampleEnv sampleModels sampleFinal := by
  refine Relation.ReflTransGen.head
    (WStep.classifyDownload (initState sampleModels) sampleModel [] rfl rfl
      (by decide)) ?_
  refine Relation.ReflTransGen.head
    (WStep.beginDownloading _ rfl rfl (by decide)) ?_
  refine Relation.ReflTransGen.head
    (WStep.startEntry _ "example.com" [] []
      ⟨"https://example.com/file.bin", "m1.bin", none, 10⟩ [] rfl (by decide)) ?_
  refine Relation.ReflTransGen.head
    (WStep.recvChunk _ "example.com" [] [] []
      ⟨"https://example.com/file.bin", "m1.bin", none, 10⟩ 15 [] rfl
      (by decide)) ?_
  refine Relation.ReflTransGen.head
    (WStep.finishEntry _ "example.com" [] [] []
      ⟨"https://example.com/file.bin", "m1.bin", none, 10⟩ rfl (by decide)) ?_
  exact Relation.ReflTransGen.single (WStep.finishAll _ rfl (by decide))

/-- C10: after preflight `overallTotalBytes` is the sum of the probed sizes
of exactly the entries requiring download (skipped entries contribute
nothing, an unknown size contributes 0); at a terminal state
`overallDownloadedBytes` equals the total of every chunk received across all
attempted downloads, including downloads that later failed verification; and
in the sample run the downloaded total exceeds the byte total, with the
reported percentage above 100. -/
theorem C10_byte_accounting (env : WorkerEnv) (models : List Model) :
    (∀ s, ReachableW env models s → s.pendingPreflight = [] →
      s.totalBytes = overallTotal env models)
    ∧ overallTotal env models
        = (models.filterMap (fun m =>
            if (classify env m).skip then none else some (env.probeSize m))).sum
    ∧ (∀ s, ReachableW env models s → isTerminal s →
      s.downloadedBytes = chunkTotal env models)
    ∧ (∃ s, ReachableW sampleEnv sampleModels s ∧ isTerminal s
      ∧ s.totalBytes < s.downloadedBytes ∧ 100 < percentOf s) := by
  refine ⟨?_, overallTotal_filterMap env models, ?_, ?_⟩
  · intro s hs hpend
    have hinv := reachable_WInv env models s hs
    rw [hinv.totalB, queue_eq_of_pending_nil env models s hinv hpend]
    rfl
  · intro s hs ht
    have hinv := reachable_WInv env models s hs
    have h0 := terminal_futureBytes_zero env models s hinv ht
    have hc := hinv.bytesConserve
    omega
  · refine ⟨sampleFinal, reach_sampleFinal, Or.inr rfl, by decide, ?_⟩
    norm_num [percentOf, sampleFinal]

/-- Witness for C10 at the sample run's terminal state: the downloaded-byte
counter equals the total chunk bytes of the attempted (failed) download. -/
theorem C10_byte_accounting_witness :
    sampleFinal.downloadedBytes = chunkTotal sampleEnv sampleModels :=
  (C10_byte_accounting sampleEnv sampleModels).2.2.1 sampleFinal
    reach_sampleFinal (Or.inr rfl)

end Comfypod
